import Mathlib

/-!
Verification of the DijNAV routing core.

This file gives a shallow embedding of the repository's source files and
proves the specification claims about them:

* `src/app.js`: `dijkstra` (single-source shortest path with a linear
  priority queue), `haversine`, `nearestNodeId`;
* `src/thefunction.js`: the standalone copy of `dijkstra`;
* `src/unnamed/part_000` (`graph.js`): `buildGridGraph`;
* `src/regions.js` (`osm.js` part): `bboxAreaDeg2`, `isUnpaved`,
  `fetchRoadGraph`.

Machine numbers are modelled as `ℚ` for the graph engine (where only
ordered-field arithmetic occurs) and as `ℝ` where the source uses
trigonometry (`haversine` and its clients).  JavaScript's `Infinity` is
`⊤ : WithTop ℚ`; a JS object used as a map is a Lean function updated with
`Function.update`, plus an explicit key list where the source enumerates
keys (`Object.keys`).
-/

namespace DijNav

/-- An adjacency-list entry, `{ to, weight, unpaved }` as consumed by
`dijkstra` in `src/app.js` (the source field `to` is a Lean keyword and is
called `target` here). -/
structure DEdge where
  target : Nat
  weight : ℚ
  unpaved : Bool
deriving DecidableEq, Repr

/-- The `adjacency` argument of `dijkstra`: a JS object mapping node ids to
edge lists, modelled as its key list (`Object.keys(adjacency)`, in
insertion order) together with the lookup function. -/
structure DAdj where
  keys : List Nat
  adj : Nat → List DEdge

/-- The `opts` argument of `dijkstra` (`{ avoidUnpaved, unpavedFactor }`). -/
structure DOpts where
  avoidUnpaved : Bool
  unpavedFactor : ℚ
deriving DecidableEq, Repr

/-- The value returned by `dijkstra`:
`{ distance: dist[goal], path, visitedCount: visited.size }`.  The
`dist` object's keys are exactly the adjacency keys plus `start`
(initialisation writes them and relaxation only overwrites existing
keys), so `dist[goal]` is `undefined` -- modelled as `none` -- when
`goal` is outside that set, and a number or `Infinity` (`some`)
otherwise. -/
structure DResult where
  distance : Option (WithTop ℚ)
  path : List Nat
  visitedCount : Nat
deriving DecidableEq, Repr

/-- Effective cost of traversing edge `e`:
`w * ((avoidUnpaved && unpaved) ? unpavedFactor : 1)` from the relaxation
step of `dijkstra`. -/
def effCost (o : DOpts) (e : DEdge) : ℚ :=
  e.weight * (if o.avoidUnpaved && e.unpaved then o.unpavedFactor else 1)

/-- The inner `for (const n of queue)` scan of `dijkstra` that picks the
unvisited node with the smallest tentative distance: accumulator `u`
(initially `null`) and `best` (initially `Infinity`), improved on strict
decrease. -/
def selectMinAux (dist : Nat → WithTop ℚ) :
    List Nat → Option Nat → WithTop ℚ → Option Nat × WithTop ℚ
  | [], u, best => (u, best)
  | n :: rest, u, best =>
    if dist n < best then selectMinAux dist rest (some n) (dist n)
    else selectMinAux dist rest u best

/-- The node `u` chosen by the priority-queue scan (`null` if every queued
distance is `Infinity`). -/
def selectMin (dist : Nat → WithTop ℚ) (queue : List Nat) : Option Nat :=
  (selectMinAux dist queue none ⊤).1

/-- One pass of the edge-relaxation loop of `dijkstra` over the list
`adjacency[u]`.  A target is skipped when already visited; otherwise
`alt = dist[u] + w*factor` replaces `dist[v]` (and `prev[v] := u`) when
`alt < dist[v]`.  In JS, `dist[v]` is `undefined` for `v` outside the key
set of `dist` (the adjacency keys plus `start`) and the comparison is then
false, hence the explicit `keyset` membership guard. -/
def relaxList (keyset : List Nat) (o : DOpts) (visited : List Nat) (u : Nat) :
    List DEdge → (Nat → WithTop ℚ) → (Nat → Option Nat) →
    (Nat → WithTop ℚ) × (Nat → Option Nat)
  | [], dist, prev => (dist, prev)
  | e :: es, dist, prev =>
    if e.target ∈ visited then relaxList keyset o visited u es dist prev
    else
      if e.target ∈ keyset ∧ dist u + (effCost o e : WithTop ℚ) < dist e.target then
        relaxList keyset o visited u es
          (Function.update dist e.target (dist u + (effCost o e : WithTop ℚ)))
          (Function.update prev e.target (some u))
      else relaxList keyset o visited u es dist prev

/-- The mutable state of the `while (queue.size)` loop of `dijkstra`. -/
structure DState where
  queue : List Nat
  dist : Nat → WithTop ℚ
  prev : Nat → Option Nat
  visited : List Nat

/-- The main `while (queue.size)` loop of `dijkstra`, with fuel bounding the
number of iterations (each iteration deletes one element from `queue`, so
`queue.length` fuel is always enough). -/
def dloop (g : DAdj) (s goal : Nat) (o : DOpts) : Nat → DState → DState
  | 0, st => st
  | fuel + 1, st =>
    match st.queue with
    | [] => st
    | _ :: _ =>
      match selectMin st.dist st.queue with
      | none => st
      | some u =>
        let visited' := st.visited ++ [u]
        let queue' := st.queue.erase u
        if u = goal then ⟨queue', st.dist, st.prev, visited'⟩
        else
          let dp := relaxList (s :: g.keys) o visited' u (g.adj u) st.dist st.prev
          dloop g s goal o fuel ⟨queue', dp.1, dp.2, visited'⟩

/-- The path-reconstruction loop of `dijkstra`
(`while (u !== undefined) { path.unshift(u); u = prev[u]; }`), with fuel
bounding the chain length. -/
def walkBack : Nat → (Nat → Option Nat) → Nat → List Nat
  | 0, _, u => [u]
  | fuel + 1, prev, u =>
    match prev u with
    | none => [u]
    | some p => walkBack fuel prev p ++ [u]

/-- `dijkstra(adjacency, start, goal, opts)` from `src/app.js`: initialise
every adjacency key to `Infinity` and `start` to `0`, run the main loop,
then reconstruct the path backwards from `goal` provided
`prev[goal] !== undefined || goal === start`. -/
def dijkstra (g : DAdj) (start goal : Nat) (o : DOpts) : DResult :=
  let dist0 : Nat → WithTop ℚ := fun n => if n = start then 0 else ⊤
  let st := dloop g start goal o g.keys.length ⟨g.keys, dist0, fun _ => none, []⟩
  let path : List Nat :=
    if st.prev goal ≠ none ∨ goal = start then walkBack g.keys.length st.prev goal
    else []
  ⟨if goal ∈ g.keys ∨ goal = start then some (st.dist goal) else none,
   path, st.visited.length⟩

/-- Walks of the adjacency from `s`, together with their accumulated
effective cost; `Walk g o s v c` says the relaxation cost of some
edge sequence from `s` to `v` is exactly `c`. -/
inductive Walk (g : DAdj) (o : DOpts) (s : Nat) : Nat → ℚ → Prop
  | nil : Walk g o s s 0
  | snoc {u : Nat} {c : ℚ} (hw : Walk g o s u c) (e : DEdge) (he : e ∈ g.adj u) :
      Walk g o s e.target (c + effCost o e)

/-- Two node ids are linked when the adjacency has an edge between them. -/
def stepRel (g : DAdj) (a b : Nat) : Prop := ∃ e ∈ g.adj a, e.target = b

/-- `L` is a node sequence that starts at `s`, ends at `v` and follows
edges of the adjacency. -/
def IsPathList (g : DAdj) (s v : Nat) (L : List Nat) : Prop :=
  L.head? = some s ∧ L.getLast? = some v ∧ List.Chain' (stepRel g) L

/-- A latitude/longitude pair in degrees. -/
structure Coord where
  lat : ℝ
  lng : ℝ

/-- `haversine(a, b)` from `src/app.js` (the identical function also
appears in `src/unnamed/part_000` and in the osm part of
`src/regions.js`): great-circle distance in meters on a sphere of radius
6371000, with the square-root argument clamped by `Math.min(1, ...)`
before `Math.asin`. -/
noncomputable def haversine (a b : Coord) : ℝ :=
  let R : ℝ := 6371000
  let toRad : ℝ → ℝ := fun deg => deg * Real.pi / 180
  let dLat := toRad (b.lat - a.lat)
  let dLng := toRad (b.lng - a.lng)
  let lat1 := toRad a.lat
  let lat2 := toRad b.lat
  let sinDLat := Real.sin (dLat / 2)
  let sinDLng := Real.sin (dLng / 2)
  let h := sinDLat * sinDLat + Real.cos lat1 * Real.cos lat2 * sinDLng * sinDLng
  2 * R * Real.arcsin (min 1 (Real.sqrt h))

/-- A graph node `{ id, lat, lng }` as stored in `currentGraph.nodes`
and scanned by `nearestNodeId` in `src/app.js`. -/
structure MapNode where
  id : String
  lat : ℝ
  lng : ℝ

/-- The `for (const n of nodes)` loop of `nearestNodeId` in `src/app.js`:
accumulators `bestId` (initially `null`) and `best` (initially
`Infinity`), improved on strict decrease of the haversine distance. -/
noncomputable def nearestAux (latlng : Coord) :
    List MapNode → Option String → WithTop ℝ → Option String
  | [], bestId, _ => bestId
  | n :: rest, bestId, best =>
    let d : WithTop ℝ := (haversine latlng ⟨n.lat, n.lng⟩ : ℝ)
    if d < best then nearestAux latlng rest (some n.id) d
    else nearestAux latlng rest bestId best

/-- `nearestNodeId(latlng, nodes)` from `src/app.js`: linear scan keeping
the first-encountered minimum; returns `null` (`none`) for an empty node
list. -/
noncomputable def nearestNodeId (latlng : Coord) (nodes : List MapNode) : Option String :=
  nearestAux latlng nodes none ⊤

/-- A node of the synthetic grid graph of `src/unnamed/part_000`
(`graph.js`): `{ id: String(id++), lat, lng }`. -/
structure GNode where
  id : String
  lat : ℝ
  lng : ℝ

/-- An edge of the grid graph:
`{ from, to, weight, surface, unpaved }` (the source fields `from`/`to`
are Lean keywords and are called `fromId`/`toId` here). -/
structure GEdge where
  fromId : String
  toId : String
  weight : ℝ
  surface : String
  unpaved : Bool

/-- An adjacency entry `{ to, weight, unpaved, surface }` as pushed by the
grid builder. -/
structure GAdjEntry where
  toId : String
  weight : ℝ
  unpaved : Bool
  surface : String

/-- The `{ nodes, edges, adjacency }` record returned by `buildGridGraph`. -/
structure GridGraph where
  nodes : List GNode
  edges : List GEdge
  adjacency : String → List GAdjEntry

/-- The node array built by the row-major double loop of `buildGridGraph`:
ids are the running counter `String(id++)` (so `String(r * cols + c)` at
position `(r, c)`), coordinates start at
`center - (rows-1) * delta / 2` and advance by `delta` per step. -/
noncomputable def gridNodes (center : Coord) (rows cols : Nat) (delta : ℝ) : List GNode :=
  (List.range rows).flatMap fun r =>
    (List.range cols).map fun c =>
      { id := toString (r * cols + c),
        lat := (center.lat - ((rows : ℝ) - 1) * delta / 2) + (r : ℝ) * delta,
        lng := (center.lng - ((cols : ℝ) - 1) * delta / 2) + (c : ℝ) * delta }

/-- The neighbor index list of cell `(r, c)` in `buildGridGraph`
(`idx(r-1,c)`, `idx(r+1,c)`, `idx(r,c-1)`, `idx(r,c+1)` guarded by the
boundary tests, with `idx(r,c) = r * cols + c`). -/
def gridNeighbors (rows cols r c : Nat) : List Nat :=
  (if 0 < r then [(r - 1) * cols + c] else []) ++
  (if r < rows - 1 then [(r + 1) * cols + c] else []) ++
  (if 0 < c then [r * cols + (c - 1)] else []) ++
  (if c < cols - 1 then [r * cols + (c + 1)] else [])

/-- The edge array of `buildGridGraph`: one edge per (cell, neighbor) pair,
with haversine weight and surface fixed to `'paved'`/`unpaved: false`. -/
noncomputable def gridEdges (center : Coord) (rows cols : Nat) (delta : ℝ) : List GEdge :=
  (List.range rows).flatMap fun r =>
    (List.range cols).flatMap fun c =>
      (gridNeighbors rows cols r c).map fun j =>
        let a := (gridNodes center rows cols delta).getD (r * cols + c) ⟨"", 0, 0⟩
        let b := (gridNodes center rows cols delta).getD j ⟨"", 0, 0⟩
        { fromId := a.id, toId := b.id,
          weight := haversine ⟨a.lat, a.lng⟩ ⟨b.lat, b.lng⟩,
          surface := "paved", unpaved := false }

/-- The adjacency object of `buildGridGraph`: node ids mapped to `[]`,
then every edge pushed onto its `from` entry in order. -/
noncomputable def buildGridAdjacency (edges : List GEdge) : String → List GAdjEntry :=
  edges.foldl
    (fun adj e =>
      Function.update adj e.fromId (adj e.fromId ++ [⟨e.toId, e.weight, e.unpaved, e.surface⟩]))
    (fun _ => [])

/-- `buildGridGraph(center, rows, cols, delta)` from `src/unnamed/part_000`. -/
noncomputable def buildGridGraph (center : Coord) (rows cols : Nat) (delta : ℝ) : GridGraph :=
  { nodes := gridNodes center rows cols delta,
    edges := gridEdges center rows cols delta,
    adjacency := buildGridAdjacency (gridEdges center rows cols delta) }

/-- A Leaflet `LatLngBounds` as consumed by `bboxAreaDeg2` and
`fetchRoadGraph` (`getSouthWest()` / `getNorthEast()`). -/
structure LatLngBounds where
  swLat : ℚ
  swLng : ℚ
  neLat : ℚ
  neLng : ℚ
deriving DecidableEq, Repr

/-- `bboxAreaDeg2(b)` from the osm part of `src/regions.js`:
`Math.max(0, ne.lat - sw.lat) * Math.max(0, ne.lng - sw.lng)`. -/
def bboxAreaDeg2 (b : LatLngBounds) : ℚ :=
  max 0 (b.neLat - b.swLat) * max 0 (b.neLng - b.swLng)

/-- JS `String.prototype.toLowerCase` (character-wise lowering, modelled
structurally so that it evaluates; `isUnpaved` and the edge surface
computation lowercase their tag inputs with it). -/
def strToLower (s : String) : String := ⟨s.data.map Char.toLower⟩

/-- The OSM tags consulted by `isUnpaved` and the edge surface string;
an absent tag is `none` (falsy in JS). -/
structure Tags where
  surface : Option String
  tracktype : Option String
  highway : Option String
deriving DecidableEq, Repr

/-- A parsed Overpass element from `data.elements`: a raw node, a way with
its node id sequence and tags, or any other element kind (skipped). -/
inductive OsmElement where
  | node (id : Nat) (lat lng : ℝ)
  | way (nodeIds : List Nat) (tags : Tags)
  | other

/-- The `unpavedSurfaces` set of `isUnpaved`. -/
def unpavedSurfaces : List String :=
  ["unpaved", "gravel", "dirt", "ground", "earth", "grass", "mud", "sand",
   "pebblestone", "fine_gravel"]

/-- The tracktype grades treated as unpaved by `isUnpaved`. -/
def unpavedGrades : List String := ["grade2", "grade3", "grade4", "grade5"]

/-- `isUnpaved(tags)` from `fetchRoadGraph` in the osm part of
`src/regions.js`: surface in the unpaved set, or a truthy tracktype among
grade2..grade5, or `highway === 'track'`. -/
def isUnpaved (tags : Tags) : Bool :=
  let surface := strToLower (tags.surface.getD "")
  let tracktype := strToLower (tags.tracktype.getD "")
  let highway := strToLower (tags.highway.getD "")
  if unpavedSurfaces.contains surface then true
  else if tracktype != "" && unpavedGrades.contains tracktype then true
  else if highway == "track" then true
  else false

/-- JS `Map.prototype.set`: overwrite in place when the key exists,
append otherwise (insertion order preserved). -/
def mapSet {α : Type} (m : List (Nat × α)) (k : Nat) (v : α) : List (Nat × α) :=
  if m.any fun p => p.1 == k then
    m.map fun p => if p.1 == k then (k, v) else p
  else m ++ [(k, v)]

/-- JS `Map.prototype.get` (`none` = `undefined` when the key is absent). -/
def mapGet {α : Type} (m : List (Nat × α)) (k : Nat) : Option α :=
  (m.find? fun p => p.1 == k).map fun p => p.2

/-- A node of the road graph: `{ id: 'n' + osmId, lat, lng }`. -/
structure RNode where
  id : String
  lat : ℝ
  lng : ℝ

/-- An edge of the road graph
(`{ from, to, weight, unpaved, surface }`; `from`/`to` are Lean keywords
and are called `fromId`/`toId` here). -/
structure REdge where
  fromId : String
  toId : String
  weight : ℝ
  unpaved : Bool
  surface : String

/-- An adjacency entry `{ to, weight, unpaved, surface }` of the road
graph. -/
structure RAdjEntry where
  toId : String
  weight : ℝ
  unpaved : Bool
  surface : String

/-- The `{ nodes, edges, adjacency }` record resolved by `fetchRoadGraph`. -/
structure RoadGraph where
  nodes : List RNode
  edges : List REdge
  adjacency : String → List RAdjEntry

/-- The first parsing loop of `fetchRoadGraph`: build the raw-node map
(`nodeMap`) and collect the ways having at least two nodes, in element
order. -/
def parseElementsAux : List OsmElement → List (Nat × Coord) → List (List Nat × Tags) →
    List (Nat × Coord) × List (List Nat × Tags)
  | [], nodeMap, ways => (nodeMap, ways)
  | OsmElement.node i la ln :: rest, nodeMap, ways =>
      parseElementsAux rest (mapSet nodeMap i ⟨la, ln⟩) ways
  | OsmElement.way ids tags :: rest, nodeMap, ways =>
      if 2 ≤ ids.length then parseElementsAux rest nodeMap (ways ++ [(ids, tags)])
      else parseElementsAux rest nodeMap ways
  | OsmElement.other :: rest, nodeMap, ways => parseElementsAux rest nodeMap ways

/-- The node list of `fetchRoadGraph`: ids are `'n' + osmId`, in node-map
insertion order. -/
def roadNodes (nodeMap : List (Nat × Coord)) : List RNode :=
  nodeMap.map fun p => ⟨"n" ++ toString p.1, p.2.lat, p.2.lng⟩

/-- The `idToIndex` map of `fetchRoadGraph` (osm id to `'n' + osmId`). -/
def idToIndex (nodeMap : List (Nat × Coord)) : List (Nat × String) :=
  nodeMap.map fun p => (p.1, "n" ++ toString p.1)

/-- The `surface` string stored on emitted edges: the lowercased raw
surface tag when present and truthy, else `'unpaved'` / `'paved'` from the
classification. -/
def edgeSurface (tags : Tags) (unpaved : Bool) : String :=
  match tags.surface with
  | some s => if s == "" then (if unpaved then "unpaved" else "paved") else strToLower s
  | none => if unpaved then "unpaved" else "paved"

/-- The segment loop of `fetchRoadGraph`: for each consecutive node pair
of a way emit a forward and a backward edge with the haversine weight,
skipping any pair whose endpoint is missing from the parsed node map
(`if (!a || !b) continue; ... if (!from || !to) continue;`). -/
noncomputable def wayEdges (nodeMap : List (Nat × Coord)) (idx : List (Nat × String))
    (unpaved : Bool) (surface : String) : List Nat → List REdge
  | a :: b :: rest =>
    (match mapGet nodeMap a, mapGet nodeMap b with
     | some ca, some cb =>
       (match mapGet idx a, mapGet idx b with
        | some fa, some tb =>
          [⟨fa, tb, haversine ca cb, unpaved, surface⟩,
           ⟨tb, fa, haversine ca cb, unpaved, surface⟩]
        | _, _ => [])
     | _, _ => []) ++ wayEdges nodeMap idx unpaved surface (b :: rest)
  | _ => []

/-- The edge list of `fetchRoadGraph`: each retained way contributes its
segment edges with its surface classification. -/
noncomputable def roadEdges (nodeMap : List (Nat × Coord))
    (ways : List (List Nat × Tags)) : List REdge :=
  ways.flatMap fun w =>
    wayEdges nodeMap (idToIndex nodeMap) (isUnpaved w.2)
      (edgeSurface w.2 (isUnpaved w.2)) w.1

/-- The adjacency object of `fetchRoadGraph`: node ids mapped to `[]`,
then every edge pushed onto its `from` entry in order. -/
noncomputable def buildRoadAdjacency (edges : List REdge) : String → List RAdjEntry :=
  edges.foldl
    (fun adj e =>
      Function.update adj e.fromId (adj e.fromId ++ [⟨e.toId, e.weight, e.unpaved, e.surface⟩]))
    (fun _ => [])

/-- The parse-and-build phase of `fetchRoadGraph`, applied to the
response's `elements` array. -/
noncomputable def buildRoadGraphData (elements : List OsmElement) : RoadGraph :=
  let p := parseElementsAux elements [] []
  ⟨roadNodes p.1, roadEdges p.1 p.2, buildRoadAdjacency (roadEdges p.1 p.2)⟩

/-- `fetchRoadGraph(bounds, options)` from the osm part of
`src/regions.js`, with the Overpass response's `elements` array supplied
as an input (the HTTP transport is outside the model): the bounding-box
area guard runs first and throws (`Except.error "AreaTooLarge"`) on an
oversized box before any element is parsed. -/
noncomputable def fetchRoadGraph (bounds : LatLngBounds) (maxAreaDeg2 : ℚ)
    (elements : List OsmElement) : Except String RoadGraph :=
  if bboxAreaDeg2 bounds > maxAreaDeg2 then
    Except.error "AreaTooLarge"
  else
    Except.ok (buildRoadGraphData elements)

/-- The loop invariant of `dijkstra`'s main `while` loop, relating the
tentative distances, predecessor map, visit list and work queue. -/
structure Inv (g : DAdj) (o : DOpts) (s : Nat) (st : DState) : Prop where
  perm : List.Perm (st.queue ++ st.visited) g.keys
  achieve : ∀ (v : Nat) (c : ℚ), st.dist v = (c : WithTop ℚ) → Walk g o s v c
  visMin : ∀ v ∈ st.visited, ∀ c : ℚ, Walk g o s v c → st.dist v ≤ (c : WithTop ℚ)
  distS : st.dist s ≤ ((0 : ℚ) : WithTop ℚ)
  fringe : ∀ z ∈ st.visited, ∀ e ∈ g.adj z, e.target ∉ st.visited →
    st.dist e.target ≤ st.dist z + (effCost o e : WithTop ℚ)
  visFin : ∀ v ∈ st.visited, st.dist v ≠ ⊤
  prevVis : ∀ v z, st.prev v = some z → z ∈ st.visited
  prevFin : ∀ v z, st.prev v = some z → st.dist v ≠ ⊤
  finPrev : ∀ v, st.dist v ≠ ⊤ → v ≠ s → st.prev v ≠ none
  prevEdge : ∀ v z, st.prev v = some z → ∃ e ∈ g.adj z, e.target = v
  wback : ∀ v ∈ st.visited, ∀ fuel, st.visited.length ≤ fuel →
    IsPathList g s v (walkBack fuel st.prev v)

/-- What holds of the loop state when `dijkstra`'s main loop terminates with
a reachable goal. -/
structure Post (g : DAdj) (o : DOpts) (s goal : Nat) (st : DState) : Prop where
  goal_vis : goal ∈ st.visited
  dist_fin : st.dist goal ≠ ⊤
  dist_min : ∀ c : ℚ, Walk g o s goal c → st.dist goal ≤ (c : WithTop ℚ)
  achieve : ∀ (v : Nat) (c : ℚ), st.dist v = (c : WithTop ℚ) → Walk g o s v c
  prev_or_start : st.prev goal ≠ none ∨ goal = s
  wback : ∀ fuel, st.visited.length ≤ fuel → IsPathList g s goal (walkBack fuel st.prev goal)
  vis_le : st.visited.length ≤ g.keys.length

theorem selectMinAux_self_or_mem (dist : Nat → WithTop ℚ) (l : List Nat)
    (u : Option Nat) (best : WithTop ℚ) :
    selectMinAux dist l u best = (u, best) ∨
      ∃ n ∈ l, selectMinAux dist l u best = (some n, dist n) := by
  induction l generalizing u best with
  | nil => exact Or.inl rfl
  | cons n rest ih =>
    simp only [selectMinAux]
    by_cases h : dist n < best
    · rw [if_pos h]
      rcases ih (some n) (dist n) with h1 | ⟨m, hm, h1⟩
      · exact Or.inr ⟨n, List.mem_cons_self _ _, h1⟩
      · exact Or.inr ⟨m, List.mem_cons_of_mem _ hm, h1⟩
    · rw [if_neg h]
      rcases ih u best with h1 | ⟨m, hm, h1⟩
      · exact Or.inl h1
      · exact Or.inr ⟨m, List.mem_cons_of_mem _ hm, h1⟩

theorem selectMinAux_le_best (dist : Nat → WithTop ℚ) (l : List Nat)
    (u : Option Nat) (best : WithTop ℚ) :
    (selectMinAux dist l u best).2 ≤ best := by
  induction l generalizing u best with
  | nil => exact le_rfl
  | cons n rest ih =>
    simp only [selectMinAux]
    by_cases h : dist n < best
    · rw [if_pos h]; exact le_trans (ih (some n) (dist n)) h.le
    · rw [if_neg h]; exact ih u best

theorem selectMinAux_le (dist : Nat → WithTop ℚ) (l : List Nat)
    (u : Option Nat) (best : WithTop ℚ) :
    ∀ n ∈ l, (selectMinAux dist l u best).2 ≤ dist n := by
  induction l generalizing u best with
  | nil => intro n hn; cases hn
  | cons n rest ih =>
    intro m hm
    simp only [selectMinAux]
    by_cases h : dist n < best
    · rw [if_pos h]
      rcases List.mem_cons.mp hm with rfl | hm'
      · exact selectMinAux_le_best _ _ _ _
      · exact ih (some n) (dist n) m hm'
    · rw [if_neg h]
      rcases List.mem_cons.mp hm with rfl | hm'
      · exact le_trans (selectMinAux_le_best _ _ _ _) (not_lt.mp h)
      · exact ih u best m hm'

theorem selectMinAux_ne_lt (dist : Nat → WithTop ℚ) (l : List Nat)
    (u : Option Nat) (best : WithTop ℚ)
    (h : (selectMinAux dist l u best).1 ≠ u) :
    (selectMinAux dist l u best).2 < best := by
  induction l generalizing u best with
  | nil => exact absurd rfl h
  | cons n rest ih =>
    simp only [selectMinAux] at h ⊢
    by_cases hlt : dist n < best
    · rw [if_pos hlt] at h ⊢
      by_cases heq : (selectMinAux dist rest (some n) (dist n)).1 = some n
      · calc (selectMinAux dist rest (some n) (dist n)).2 ≤ dist n :=
              selectMinAux_le_best _ _ _ _
          _ < best := hlt
      · exact lt_trans (ih (some n) (dist n) heq) hlt
    · rw [if_neg hlt] at h ⊢
      exact ih u best h

theorem selectMinAux_eq_none (dist : Nat → WithTop ℚ) (l : List Nat)
    (u : Option Nat) (best : WithTop ℚ)
    (h : (selectMinAux dist l u best).1 = none) :
    u = none ∧ ∀ n ∈ l, ¬ dist n < best := by
  induction l generalizing u best with
  | nil => exact ⟨h, by simp⟩
  | cons n rest ih =>
    simp only [selectMinAux] at h
    by_cases hlt : dist n < best
    · rw [if_pos hlt] at h
      exact absurd (ih (some n) (dist n) h).1 (by simp)
    · rw [if_neg hlt] at h
      obtain ⟨h1, h2⟩ := ih u best h
      refine ⟨h1, ?_⟩
      intro m hm
      rcases List.mem_cons.mp hm with rfl | hm'
      · exact hlt
      · exact h2 m hm'

theorem selectMinAux_of_not_lt (dist : Nat → WithTop ℚ) (l : List Nat)
    (u : Option Nat) (best : WithTop ℚ)
    (h : ∀ n ∈ l, ¬ dist n < best) :
    selectMinAux dist l u best = (u, best) := by
  induction l with
  | nil => rfl
  | cons n rest ih =>
    simp only [selectMinAux]
    rw [if_neg (h n (List.mem_cons_self _ _))]
    exact ih fun m hm => h m (List.mem_cons_of_mem _ hm)

theorem selectMin_mem {dist : Nat → WithTop ℚ} {q : List Nat} {u : Nat}
    (h : selectMin dist q = some u) : u ∈ q := by
  rcases selectMinAux_self_or_mem dist q none ⊤ with h1 | ⟨n, hn, h1⟩
  · rw [selectMin, h1] at h; cases h
  · rw [selectMin, h1] at h; cases h; exact hn

theorem selectMin_dist_eq {dist : Nat → WithTop ℚ} {q : List Nat} {u : Nat}
    (h : selectMin dist q = some u) :
    (selectMinAux dist q none ⊤).2 = dist u := by
  rcases selectMinAux_self_or_mem dist q none ⊤ with h1 | ⟨n, hn, h1⟩
  · rw [selectMin, h1] at h; cases h
  · rw [selectMin, h1] at h; cases h; rw [h1]

theorem selectMin_lt_top {dist : Nat → WithTop ℚ} {q : List Nat} {u : Nat}
    (h : selectMin dist q = some u) : dist u < ⊤ := by
  have h1 : (selectMinAux dist q none ⊤).1 ≠ none := by
    rw [selectMin] at h; rw [h]; simp
  have := selectMinAux_ne_lt dist q none ⊤ h1
  rwa [selectMin_dist_eq h] at this

theorem selectMin_min {dist : Nat → WithTop ℚ} {q : List Nat} {u : Nat}
    (h : selectMin dist q = some u) : ∀ n ∈ q, dist u ≤ dist n := by
  intro n hn
  rw [← selectMin_dist_eq h]
  exact selectMinAux_le dist q none ⊤ n hn

theorem selectMin_eq_none {dist : Nat → WithTop ℚ} {q : List Nat}
    (h : selectMin dist q = none) : ∀ n ∈ q, dist n = ⊤ := by
  intro n hn
  have := (selectMinAux_eq_none dist q none ⊤ h).2 n hn
  rwa [lt_top_iff_ne_top, not_not] at this

theorem selectMin_of_all_top {dist : Nat → WithTop ℚ} {q : List Nat}
    (h : ∀ n ∈ q, dist n = ⊤) : selectMin dist q = none := by
  rw [selectMin, selectMinAux_of_not_lt]
  intro n hn
  rw [h n hn]
  exact lt_irrefl ⊤

theorem relaxList_dist_le (ks : List Nat) (o : DOpts) (vis : List Nat) (u : Nat)
    (es : List DEdge) (dist : Nat → WithTop ℚ) (prev : Nat → Option Nat) :
    ∀ v, (relaxList ks o vis u es dist prev).1 v ≤ dist v := by
  induction es generalizing dist prev with
  | nil => intro v; exact le_rfl
  | cons e rest ih =>
    intro v
    simp only [relaxList]
    by_cases h1 : e.target ∈ vis
    · rw [if_pos h1]; exact ih dist prev v
    · rw [if_neg h1]
      by_cases h2 : e.target ∈ ks ∧ dist u + (effCost o e : WithTop ℚ) < dist e.target
      · rw [if_pos h2]
        refine le_trans (ih _ _ v) ?_
        rcases eq_or_ne v e.target with rfl | hne
        · rw [Function.update_same]; exact h2.2.le
        · rw [Function.update_noteq hne]
      · rw [if_neg h2]; exact ih dist prev v

theorem relaxList_visited (ks : List Nat) (o : DOpts) (vis : List Nat) (u : Nat)
    (es : List DEdge) (dist : Nat → WithTop ℚ) (prev : Nat → Option Nat)
    {v : Nat} (hv : v ∈ vis) :
    (relaxList ks o vis u es dist prev).1 v = dist v ∧
      (relaxList ks o vis u es dist prev).2 v = prev v := by
  induction es generalizing dist prev with
  | nil => exact ⟨rfl, rfl⟩
  | cons e rest ih =>
    simp only [relaxList]
    by_cases h1 : e.target ∈ vis
    · rw [if_pos h1]; exact ih dist prev
    · rw [if_neg h1]
      by_cases h2 : e.target ∈ ks ∧ dist u + (effCost o e : WithTop ℚ) < dist e.target
      · rw [if_pos h2]
        have hne : v ≠ e.target := fun h => h1 (h ▸ hv)
        obtain ⟨ha, hb⟩ := ih (Function.update dist e.target
          (dist u + (effCost o e : WithTop ℚ))) (Function.update prev e.target (some u))
        rw [ha, hb, Function.update_noteq hne, Function.update_noteq hne]
        exact ⟨rfl, rfl⟩
      · rw [if_neg h2]; exact ih dist prev

theorem relaxList_cases (ks : List Nat) (o : DOpts) (vis : List Nat) {u : Nat}
    (es : List DEdge) (dist : Nat → WithTop ℚ) (prev : Nat → Option Nat)
    (hu : u ∈ vis) (v : Nat) :
    ((relaxList ks o vis u es dist prev).1 v = dist v ∧
      (relaxList ks o vis u es dist prev).2 v = prev v) ∨
    (v ∉ vis ∧ v ∈ ks ∧ (relaxList ks o vis u es dist prev).2 v = some u ∧
      ∃ e ∈ es, e.target = v ∧
        (relaxList ks o vis u es dist prev).1 v = dist u + (effCost o e : WithTop ℚ)) := by
  induction es generalizing dist prev with
  | nil => exact Or.inl ⟨rfl, rfl⟩
  | cons e rest ih =>
    simp only [relaxList]
    by_cases h1 : e.target ∈ vis
    · rw [if_pos h1]
      rcases ih dist prev with h | ⟨ha, hb, hc, e', he', hd, hh⟩
      · exact Or.inl h
      · exact Or.inr ⟨ha, hb, hc, e', List.mem_cons_of_mem _ he', hd, hh⟩
    · rw [if_neg h1]
      by_cases h2 : e.target ∈ ks ∧ dist u + (effCost o e : WithTop ℚ) < dist e.target
      · rw [if_pos h2]
        have hune : u ≠ e.target := fun h => h1 (h ▸ hu)
        have hdu : Function.update dist e.target
            (dist u + (effCost o e : WithTop ℚ)) u = dist u := by
          rw [Function.update_noteq hune]
        rcases ih (Function.update dist e.target (dist u + (effCost o e : WithTop ℚ)))
            (Function.update prev e.target (some u)) with ⟨ha, hb⟩ | ⟨ha, hb, hc, e', he', hd, hh⟩
        · rcases eq_or_ne v e.target with rfl | hne
          · refine Or.inr ⟨h1, h2.1, ?_, e, List.mem_cons_self _ _, rfl, ?_⟩
            · rw [hb, Function.update_same]
            · rw [ha, Function.update_same]
          · refine Or.inl ⟨?_, ?_⟩
            · rw [ha, Function.update_noteq hne]
            · rw [hb, Function.update_noteq hne]
        · refine Or.inr ⟨ha, hb, hc, e', List.mem_cons_of_mem _ he', hd, ?_⟩
          rw [hh, hdu]
      · rw [if_neg h2]
        rcases ih dist prev with h | ⟨ha, hb, hc, e', he', hd, hh⟩
        · exact Or.inl h
        · exact Or.inr ⟨ha, hb, hc, e', List.mem_cons_of_mem _ he', hd, hh⟩

theorem relaxList_relaxed (ks : List Nat) (o : DOpts) (vis : List Nat) {u : Nat}
    (es : List DEdge) (dist : Nat → WithTop ℚ) (prev : Nat → Option Nat)
    (hu : u ∈ vis) :
    ∀ e ∈ es, e.target ∉ vis → e.target ∈ ks →
      (relaxList ks o vis u es dist prev).1 e.target ≤
        dist u + (effCost o e : WithTop ℚ) := by
  induction es generalizing dist prev with
  | nil => intro e he; cases he
  | cons e0 rest ih =>
    intro e he hvis hks
    simp only [relaxList]
    by_cases h1 : e0.target ∈ vis
    · rw [if_pos h1]
      rcases List.mem_cons.mp he with rfl | he'
      · exact absurd h1 hvis
      · exact ih dist prev e he' hvis hks
    · rw [if_neg h1]
      by_cases h2 : e0.target ∈ ks ∧ dist u + (effCost o e0 : WithTop ℚ) < dist e0.target
      · rw [if_pos h2]
        have hune : u ≠ e0.target := fun h => h1 (h ▸ hu)
        have hdu : Function.update dist e0.target
            (dist u + (effCost o e0 : WithTop ℚ)) u = dist u := by
          rw [Function.update_noteq hune]
        rcases List.mem_cons.mp he with rfl | he'
        · refine le_trans (relaxList_dist_le _ _ _ _ _ _ _ _) ?_
          rw [Function.update_same]
        · have := ih (Function.update dist e0.target
            (dist u + (effCost o e0 : WithTop ℚ)))
            (Function.update prev e0.target (some u)) e he' hvis hks
          rwa [hdu] at this
      · rw [if_neg h2]
        rcases List.mem_cons.mp he with rfl | he'
        · refine le_trans (relaxList_dist_le _ _ _ _ _ _ _ _) ?_
          rcases Decidable.not_and_iff_or_not.mp h2 with h | h
          · exact absurd hks h
          · exact not_lt.mp h
        · exact ih dist prev e he' hvis hks

theorem effCost_nonneg {o : DOpts} {e : DEdge} (hw : 0 ≤ e.weight)
    (hm : 1 ≤ o.unpavedFactor) : 0 ≤ effCost o e := by
  rw [effCost]
  by_cases h : o.avoidUnpaved && e.unpaved
  · rw [if_pos h]; exact mul_nonneg hw (le_trans zero_le_one hm)
  · rw [if_neg h]; simpa using hw

theorem walk_mem_keys {g : DAdj} {o : DOpts} {s : Nat}
    (hs : s ∈ g.keys)
    (hcl : ∀ z ∈ g.keys, ∀ e ∈ g.adj z, e.target ∈ g.keys) :
    ∀ {v : Nat} {c : ℚ}, Walk g o s v c → v ∈ g.keys := by
  intro v c h
  induction h with
  | nil => exact hs
  | snoc hw e he ih => exact hcl _ ih e he

theorem walk_cost_nonneg {g : DAdj} {o : DOpts} {s : Nat}
    (hs : s ∈ g.keys)
    (hcl : ∀ z ∈ g.keys, ∀ e ∈ g.adj z, e.target ∈ g.keys)
    (hw : ∀ z ∈ g.keys, ∀ e ∈ g.adj z, 0 ≤ e.weight)
    (hm : 1 ≤ o.unpavedFactor) :
    ∀ {v : Nat} {c : ℚ}, Walk g o s v c → 0 ≤ c := by
  intro v c h
  induction h with
  | nil => exact le_rfl
  | snoc hwk e he ih =>
    have hk := walk_mem_keys hs hcl hwk
    exact add_nonneg ih (effCost_nonneg (hw _ hk e he) hm)

theorem walkBack_congr {p p' : Nat → Option Nat} {V : List Nat}
    (hstab : ∀ x ∈ V, p' x = p x)
    (hcl : ∀ x z, p x = some z → z ∈ V) :
    ∀ (fuel : Nat) {v : Nat}, v ∈ V → walkBack fuel p' v = walkBack fuel p v := by
  intro fuel
  induction fuel with
  | zero => intro v _; rfl
  | succ f ih =>
    intro v hv
    simp only [walkBack, hstab v hv]
    cases hp : p v with
    | none => rfl
    | some z =>
      show walkBack f p' z ++ [v] = walkBack f p z ++ [v]
      rw [ih (hcl v z hp)]

theorem isPathList_single (g : DAdj) (s : Nat) : IsPathList g s s [s] :=
  ⟨rfl, rfl, List.chain'_singleton s⟩

theorem IsPathList.snoc {g : DAdj} {s z u : Nat} {L : List Nat}
    (h : IsPathList g s z L) (hstep : stepRel g z u) :
    IsPathList g s u (L ++ [u]) := by
  obtain ⟨h1, h2, h3⟩ := h
  obtain ⟨a, L', rfl⟩ : ∃ a L', L = a :: L' := by
    cases L with
    | nil => cases h1
    | cons a L' => exact ⟨a, L', rfl⟩
  refine ⟨h1, by rw [List.getLast?_concat], ?_⟩
  rw [List.chain'_append]
  refine ⟨h3, List.chain'_singleton u, ?_⟩
  intro x hx y hy
  rw [h2] at hx
  cases hx
  cases hy
  exact hstep

theorem Inv.queue_sub_keys {g : DAdj} {o : DOpts} {s : Nat} {st : DState}
    (hI : Inv g o s st) {v : Nat} (hv : v ∈ st.queue) : v ∈ g.keys :=
  hI.perm.mem_iff.mp (List.mem_append_left _ hv)

theorem Inv.mem_queue {g : DAdj} {o : DOpts} {s : Nat} {st : DState}
    (hI : Inv g o s st) {v : Nat} (hk : v ∈ g.keys) (hnv : v ∉ st.visited) :
    v ∈ st.queue := by
  rcases List.mem_append.mp (hI.perm.mem_iff.mpr hk) with h | h
  · exact h
  · exact absurd h hnv

theorem Inv.not_visited {g : DAdj} {o : DOpts} {s : Nat} {st : DState}
    (hI : Inv g o s st) (hnodup : g.keys.Nodup) {v : Nat} (hv : v ∈ st.queue) :
    v ∉ st.visited := by
  have hnd : (st.queue ++ st.visited).Nodup := hI.perm.nodup_iff.mpr hnodup
  exact (List.nodup_append.mp hnd).2.2 hv

theorem inv_init (g : DAdj) (o : DOpts) (s : Nat) :
    Inv g o s ⟨g.keys, fun n => if n = s then (0 : WithTop ℚ) else ⊤, fun _ => none, []⟩ := by
  refine ⟨?_, ?_, ?_, ?_, ?_, ?_, ?_, ?_, ?_, ?_, ?_⟩
  · simp
  · intro v c h
    dsimp only at h
    by_cases hv : v = s
    · subst hv
      rw [if_pos rfl] at h
      have : (0 : ℚ) = c := by exact_mod_cast h
      rw [← this]
      exact Walk.nil
    · rw [if_neg hv] at h
      exact absurd h.symm (WithTop.coe_ne_top)
  · intro v hv; cases hv
  · dsimp only
    rw [if_pos rfl]; exact le_of_eq rfl
  · intro z hz; cases hz
  · intro v hv; cases hv
  · intro v z h; cases h
  · intro v z h; cases h
  · intro v h hvs
    dsimp only at h
    rw [if_neg hvs] at h
    exact absurd rfl h
  · intro v z h; cases h
  · intro v hv; cases hv

theorem unvisited_lower_bound {g : DAdj} {o : DOpts} {s : Nat} {st : DState}
    (hI : Inv g o s st)
    (hs : s ∈ g.keys)
    (hcl : ∀ z ∈ g.keys, ∀ e ∈ g.adj z, e.target ∈ g.keys)
    (hw : ∀ z ∈ g.keys, ∀ e ∈ g.adj z, 0 ≤ e.weight)
    (hm : 1 ≤ o.unpavedFactor)
    (b : WithTop ℚ)
    (hmin : ∀ n ∈ st.queue, b ≤ st.dist n) :
    ∀ {v : Nat} {c : ℚ}, Walk g o s v c → v ∉ st.visited → b ≤ (c : WithTop ℚ) := by
  intro v c hwk
  induction hwk with
  | nil =>
    intro hns
    have hq : s ∈ st.queue := hI.mem_queue hs hns
    exact le_trans (hmin s hq) hI.distS
  | @snoc z c0 hwk e he ih =>
    intro hnv
    by_cases hz : z ∈ st.visited
    · have h1 : st.dist e.target ≤ st.dist z + (effCost o e : WithTop ℚ) :=
        hI.fringe z hz e he hnv
      have h2 : st.dist z ≤ (c0 : WithTop ℚ) := hI.visMin z hz c0 hwk
      have h3 : st.dist e.target ≤ ((c0 + effCost o e : ℚ) : WithTop ℚ) := by
        rw [WithTop.coe_add]
        exact le_trans h1 (add_le_add_right h2 _)
      have hk : e.target ∈ g.keys := hcl z (walk_mem_keys hs hcl hwk) e he
      exact le_trans (hmin _ (hI.mem_queue hk hnv)) h3
    · refine le_trans (ih hz) ?_
      rw [WithTop.coe_le_coe]
      have h0 : (0 : ℚ) ≤ effCost o e :=
        effCost_nonneg (hw z (walk_mem_keys hs hcl hwk) e he) hm
      linarith

theorem wback_extend {g : DAdj} {o : DOpts} {s : Nat} {st : DState} {u : Nat}
    (hI : Inv g o s st) (hufin : st.dist u ≠ ⊤) (_hunv : u ∉ st.visited) :
    ∀ fuel, (st.visited ++ [u]).length ≤ fuel →
      IsPathList g s u (walkBack fuel st.prev u) := by
  intro fuel hfuel
  cases hpu : st.prev u with
  | none =>
    have hus : u = s := by
      by_contra hne
      exact (hI.finPrev u hufin hne) hpu
    subst hus
    cases fuel with
    | zero => exact isPathList_single g u
    | succ f =>
      show IsPathList g u u (match st.prev u with
        | none => [u]
        | some p => walkBack f st.prev p ++ [u])
      rw [hpu]
      exact isPathList_single g u
  | some z =>
    have hz : z ∈ st.visited := hI.prevVis u z hpu
    cases fuel with
    | zero => simp at hfuel
    | succ f =>
      have hf : st.visited.length ≤ f := by
        rw [List.length_append, List.length_singleton] at hfuel
        omega
      have hpath := hI.wback z hz f hf
      show IsPathList g s u (match st.prev u with
        | none => [u]
        | some p => walkBack f st.prev p ++ [u])
      rw [hpu]
      exact hpath.snoc (hI.prevEdge u z hpu)

theorem inv_step {g : DAdj} {o : DOpts} {s : Nat} {st : DState} {u : Nat}
    (hI : Inv g o s st)
    (hnodup : g.keys.Nodup) (hs : s ∈ g.keys)
    (hcl : ∀ z ∈ g.keys, ∀ e ∈ g.adj z, e.target ∈ g.keys)
    (hw : ∀ z ∈ g.keys, ∀ e ∈ g.adj z, 0 ≤ e.weight)
    (hm : 1 ≤ o.unpavedFactor)
    (hsel : selectMin st.dist st.queue = some u) :
    Inv g o s ⟨st.queue.erase u,
      (relaxList (s :: g.keys) o (st.visited ++ [u]) u (g.adj u) st.dist st.prev).1,
      (relaxList (s :: g.keys) o (st.visited ++ [u]) u (g.adj u) st.dist st.prev).2,
      st.visited ++ [u]⟩ := by
  have hq : u ∈ st.queue := selectMin_mem hsel
  have hufin : st.dist u ≠ ⊤ := (lt_top_iff_ne_top).mp (selectMin_lt_top hsel)
  have hunv : u ∉ st.visited := hI.not_visited hnodup hq
  have huk : u ∈ g.keys := hI.queue_sub_keys hq
  have huvis' : u ∈ st.visited ++ [u] := List.mem_append_right _ (List.mem_singleton.mpr rfl)
  set vis' := st.visited ++ [u] with hvis'
  set dp := relaxList (s :: g.keys) o vis' u (g.adj u) st.dist st.prev with hdp
  have hvissub : ∀ x ∈ st.visited, x ∈ vis' := fun x hx => List.mem_append_left _ hx
  have hdist_le : ∀ v, dp.1 v ≤ st.dist v := relaxList_dist_le _ _ _ _ _ _ _
  have hvstab : ∀ v ∈ vis', dp.1 v = st.dist v ∧ dp.2 v = st.prev v :=
    fun v hv => relaxList_visited _ _ _ _ _ _ _ hv
  have hcases := relaxList_cases (s :: g.keys) o vis' (g.adj u) st.dist st.prev huvis'
  rw [← hdp] at hcases
  have hdu : dp.1 u = st.dist u := (hvstab u huvis').1
  -- the minimality of `u` over the queue (extraction lemma)
  have humin : ∀ (c : ℚ), Walk g o s u c → st.dist u ≤ (c : WithTop ℚ) := by
    intro c hwk
    exact unvisited_lower_bound hI hs hcl hw hm (st.dist u) (selectMin_min hsel) hwk hunv
  refine ⟨?_, ?_, ?_, ?_, ?_, ?_, ?_, ?_, ?_, ?_, ?_⟩
  all_goals dsimp only
  · -- perm
    have h1 : st.queue.erase u ++ (st.visited ++ [u]) =
        (st.queue.erase u ++ st.visited) ++ [u] := by rw [List.append_assoc]
    have h2 : List.Perm ((st.queue.erase u ++ st.visited) ++ [u])
        (u :: (st.queue.erase u ++ st.visited)) := List.perm_append_singleton _ _
    have h3 : List.Perm (u :: st.queue.erase u) st.queue :=
      (List.perm_cons_erase hq).symm
    have h4 : List.Perm (u :: (st.queue.erase u ++ st.visited)) (st.queue ++ st.visited) :=
      List.Perm.append_right st.visited h3
    show List.Perm (st.queue.erase u ++ vis') g.keys
    rw [hvis', h1]
    exact (h2.trans h4).trans hI.perm
  · -- achieve
    intro v c h
    rcases hcases v with ⟨ha, _⟩ | ⟨_, _, _, e, he, htgt, hd⟩
    · exact hI.achieve v c (ha ▸ h)
    · obtain ⟨du, hdu'⟩ := WithTop.ne_top_iff_exists.mp hufin
      rw [hd, ← hdu'] at h
      rw [show ((du : WithTop ℚ) + (effCost o e : WithTop ℚ)) =
        ((du + effCost o e : ℚ) : WithTop ℚ) from (WithTop.coe_add _ _).symm] at h
      have hc : du + effCost o e = c := by exact_mod_cast h
      have hwu : Walk g o s u du := hI.achieve u du hdu'.symm
      rw [← htgt, ← hc]
      exact hwu.snoc e he
  · -- visMin
    intro v hv c hwk
    rcases List.mem_append.mp hv with hv' | hv'
    · rw [(hvstab v (hvissub v hv')).1]
      exact hI.visMin v hv' c hwk
    · have : v = u := List.mem_singleton.mp hv'
      subst this
      rw [hdu]
      exact humin c hwk
  · -- distS
    exact le_trans (hdist_le s) hI.distS
  · -- fringe
    intro z hz e he htgt
    rcases List.mem_append.mp hz with hz' | hz'
    · have h1 : e.target ∉ st.visited := fun h => htgt (hvissub _ h)
      have h2 := hI.fringe z hz' e he h1
      rw [(hvstab z (hvissub z hz')).1]
      exact le_trans (hdist_le e.target) h2
    · have : z = u := List.mem_singleton.mp hz'
      subst this
      have hek : e.target ∈ s :: g.keys :=
        List.mem_cons_of_mem s (hcl z huk e he)
      have hrel := relaxList_relaxed (s :: g.keys) o vis' (g.adj z) st.dist st.prev
        huvis' e he htgt hek
      rw [← hdp] at hrel
      rw [hdu]
      exact hrel
  · -- visFin
    intro v hv
    rcases List.mem_append.mp hv with hv' | hv'
    · exact ne_top_of_le_ne_top (hI.visFin v hv') (hdist_le v)
    · have : v = u := List.mem_singleton.mp hv'
      subst this
      rw [hdu]
      exact hufin
  · -- prevVis
    intro v z h
    rcases hcases v with ⟨_, hb⟩ | ⟨_, _, hc, _, _, _, _⟩
    · exact hvissub z (hI.prevVis v z (hb ▸ h))
    · rw [hc] at h
      cases h
      exact huvis'
  · -- prevFin
    intro v z h
    rcases hcases v with ⟨ha, hb⟩ | ⟨_, _, _, e, he, _, hd⟩
    · rw [ha]
      exact hI.prevFin v z (hb ▸ h)
    · rw [hd]
      exact WithTop.add_ne_top.mpr ⟨hufin, WithTop.coe_ne_top⟩
  · -- finPrev
    intro v hfin hvs
    rcases hcases v with ⟨ha, hb⟩ | ⟨_, _, hc, _, _, _, _⟩
    · rw [hb]
      exact hI.finPrev v (ha ▸ hfin) hvs
    · rw [hc]
      simp
  · -- prevEdge
    intro v z h
    rcases hcases v with ⟨_, hb⟩ | ⟨_, _, hc, e, he, htgt, _⟩
    · exact hI.prevEdge v z (hb ▸ h)
    · rw [hc] at h
      cases h
      exact ⟨e, he, htgt⟩
  · -- wback
    intro v hv fuel hfuel
    have hcongr : walkBack fuel dp.2 v = walkBack fuel st.prev v := by
      refine walkBack_congr (fun x hx => (hvstab x hx).2) ?_ fuel hv
      intro x z hx
      exact hvissub z (hI.prevVis x z hx)
    rw [hcongr]
    rcases List.mem_append.mp hv with hv' | hv'
    · have hlen : st.visited.length ≤ fuel := by
        rw [hvis', List.length_append, List.length_singleton] at hfuel
        omega
      exact hI.wback v hv' fuel hlen
    · have : v = u := List.mem_singleton.mp hv'
      subst this
      exact wback_extend hI hufin hunv fuel hfuel

theorem dloop_queue_nil {g : DAdj} {s goal : Nat} {o : DOpts} {fuel : Nat} {st : DState}
    (h : st.queue = []) : dloop g s goal o fuel st = st := by
  cases fuel with
  | zero => rfl
  | succ f => simp only [dloop, h]

theorem dloop_sel_none {g : DAdj} {s goal : Nat} {o : DOpts} {fuel : Nat} {st : DState}
    (hq : st.queue ≠ []) (h : selectMin st.dist st.queue = none) :
    dloop g s goal o (fuel + 1) st = st := by
  obtain ⟨a, l, hal⟩ : ∃ a l, st.queue = a :: l := by
    cases hc : st.queue with
    | nil => exact absurd hc hq
    | cons a l => exact ⟨a, l, rfl⟩
  simp only [dloop, hal]
  rw [← hal, h]

theorem dloop_sel_some {g : DAdj} {s goal : Nat} {o : DOpts} {fuel : Nat} {st : DState}
    {u : Nat} (h : selectMin st.dist st.queue = some u) :
    dloop g s goal o (fuel + 1) st =
      if u = goal then
        DState.mk (st.queue.erase u) st.dist st.prev (st.visited ++ [u])
      else
        dloop g s goal o fuel
          (DState.mk (st.queue.erase u)
            (relaxList (s :: g.keys) o (st.visited ++ [u]) u (g.adj u) st.dist st.prev).1
            (relaxList (s :: g.keys) o (st.visited ++ [u]) u (g.adj u) st.dist st.prev).2
            (st.visited ++ [u])) := by
  obtain ⟨a, l, hal⟩ : ∃ a l, st.queue = a :: l := by
    cases hc : st.queue with
    | nil =>
      rw [hc] at h
      exact absurd (selectMin_mem h) (List.not_mem_nil u)
    | cons a l => exact ⟨a, l, rfl⟩
  simp only [dloop, hal]
  rw [← hal, h]

theorem dloop_post {g : DAdj} {o : DOpts} {s goal : Nat}
    (hnodup : g.keys.Nodup) (hs : s ∈ g.keys)
    (hcl : ∀ z ∈ g.keys, ∀ e ∈ g.adj z, e.target ∈ g.keys)
    (hw : ∀ z ∈ g.keys, ∀ e ∈ g.adj z, 0 ≤ e.weight)
    (hm : 1 ≤ o.unpavedFactor)
    (hreach : ∃ c : ℚ, Walk g o s goal c) :
    ∀ (fuel : Nat) (st : DState), Inv g o s st → goal ∈ st.queue →
      st.queue.length ≤ fuel → Post g o s goal (dloop g s goal o fuel st) := by
  intro fuel
  induction fuel with
  | zero =>
    intro st _ hgq hlen
    rw [List.length_eq_zero.mp (Nat.le_zero.mp hlen)] at hgq
    cases hgq
  | succ f ih =>
    intro st hI hgq hlen
    have hqne : st.queue ≠ [] := List.ne_nil_of_mem hgq
    cases hsel : selectMin st.dist st.queue with
    | none =>
      exfalso
      obtain ⟨c, hwk⟩ := hreach
      have hgnv : goal ∉ st.visited := hI.not_visited hnodup hgq
      have htop : ∀ n ∈ st.queue, (⊤ : WithTop ℚ) ≤ st.dist n := fun n hn =>
        le_of_eq (selectMin_eq_none hsel n hn).symm
      have := unvisited_lower_bound hI hs hcl hw hm ⊤ htop hwk hgnv
      exact absurd this (WithTop.not_top_le_coe c)
    | some u =>
      have hq : u ∈ st.queue := selectMin_mem hsel
      have hufin : st.dist u ≠ ⊤ := (lt_top_iff_ne_top).mp (selectMin_lt_top hsel)
      have hunv : u ∉ st.visited := hI.not_visited hnodup hq
      have hlen_keys : st.queue.length + st.visited.length = g.keys.length := by
        have := hI.perm.length_eq
        rwa [List.length_append] at this
      rw [dloop_sel_some hsel]
      by_cases hug : u = goal
      · subst hug
        rw [if_pos rfl]
        refine ⟨List.mem_append_right _ (List.mem_singleton.mpr rfl), hufin, ?_, ?_, ?_, ?_, ?_⟩
        · intro c hwk
          exact unvisited_lower_bound hI hs hcl hw hm (st.dist u)
            (selectMin_min hsel) hwk hunv
        · exact hI.achieve
        · by_cases hgs : u = s
          · exact Or.inr hgs
          · exact Or.inl (hI.finPrev u hufin hgs)
        · intro fl hfl
          exact wback_extend hI hufin hunv fl hfl
        · dsimp only
          rw [List.length_append, List.length_singleton]
          have : 1 ≤ st.queue.length := List.length_pos.mpr hqne
          omega
      · rw [if_neg hug]
        have hI2 := inv_step hI hnodup hs hcl hw hm hsel
        have hgq2 : goal ∈ st.queue.erase u :=
          (List.mem_erase_of_ne (fun h => hug h.symm)).mpr hgq
        have hlen2 : (st.queue.erase u).length ≤ f := by
          rw [List.length_erase_of_mem hq]
          omega
        exact ih _ hI2 hgq2 hlen2

theorem walkBack_none (fuel : Nat) (t : Nat) :
    walkBack fuel (fun _ => none) t = [t] := by
  cases fuel with
  | zero => rfl
  | succ f => rfl

theorem dloop_inv {g : DAdj} {o : DOpts} {s goal : Nat}
    (hnodup : g.keys.Nodup) (hs : s ∈ g.keys)
    (hcl : ∀ z ∈ g.keys, ∀ e ∈ g.adj z, e.target ∈ g.keys)
    (hw : ∀ z ∈ g.keys, ∀ e ∈ g.adj z, 0 ≤ e.weight)
    (hm : 1 ≤ o.unpavedFactor)
    (hunreach : ∀ c : ℚ, ¬ Walk g o s goal c) :
    ∀ (fuel : Nat) (st : DState), Inv g o s st →
      Inv g o s (dloop g s goal o fuel st) := by
  intro fuel
  induction fuel with
  | zero => intro st hI; exact hI
  | succ f ih =>
    intro st hI
    by_cases hq : st.queue = []
    · rw [dloop_queue_nil hq]; exact hI
    · cases hsel : selectMin st.dist st.queue with
      | none => rw [dloop_sel_none hq hsel]; exact hI
      | some u =>
        rw [dloop_sel_some hsel]
        have hug : u ≠ goal := by
          intro h
          subst h
          obtain ⟨c, hc⟩ := WithTop.ne_top_iff_exists.mp
            (lt_top_iff_ne_top.mp (selectMin_lt_top hsel))
          exact hunreach c (hI.achieve u c hc.symm)
        rw [if_neg hug]
        exact ih _ (inv_step hI hnodup hs hcl hw hm hsel)

/-- C1: Dijkstra optimality.  For every adjacency whose edge lists carry
non-negative weights and stay inside the key set, every
`unpavedFactor ≥ 1`, and every `start` and `goal` among the adjacency keys
with `goal` reachable from `start`, `dijkstra` returns a path that begins
at `start`, ends at `goal` and follows edges of the adjacency, and returns
a finite distance that is exactly the minimum effective cost over all
start-to-goal walks (the effective cost of an edge being
`weight * unpavedFactor` when it is unpaved and avoidance is on, and
`weight` otherwise). -/
theorem dijkstra_optimal (g : DAdj) (o : DOpts) (s t : Nat)
    (hnodup : g.keys.Nodup)
    (hcl : ∀ z ∈ g.keys, ∀ e ∈ g.adj z, e.target ∈ g.keys)
    (hw : ∀ z ∈ g.keys, ∀ e ∈ g.adj z, 0 ≤ e.weight)
    (hm : 1 ≤ o.unpavedFactor)
    (hs : s ∈ g.keys) (ht : t ∈ g.keys)
    (hreach : ∃ c : ℚ, Walk g o s t c) :
    IsPathList g s t (dijkstra g s t o).path ∧
      ∃ c : ℚ, (dijkstra g s t o).distance = some (c : WithTop ℚ) ∧ Walk g o s t c ∧
        ∀ c' : ℚ, Walk g o s t c' → c ≤ c' := by
  have hpost := dloop_post hnodup hs hcl hw hm hreach g.keys.length
    ⟨g.keys, fun n => if n = s then (0 : WithTop ℚ) else ⊤, fun _ => none, []⟩
    (inv_init g o s) ht (Nat.le_refl _)
  have hres : dijkstra g s t o =
      ⟨if t ∈ g.keys ∨ t = s then
          some ((dloop g s t o g.keys.length
            ⟨g.keys, fun n => if n = s then (0 : WithTop ℚ) else ⊤, fun _ => none, []⟩).dist t)
        else none,
       if (dloop g s t o g.keys.length
          ⟨g.keys, fun n => if n = s then (0 : WithTop ℚ) else ⊤, fun _ => none, []⟩).prev t ≠ none
          ∨ t = s
       then walkBack g.keys.length
          (dloop g s t o g.keys.length
            ⟨g.keys, fun n => if n = s then (0 : WithTop ℚ) else ⊤, fun _ => none, []⟩).prev t
       else [],
       (dloop g s t o g.keys.length
          ⟨g.keys, fun n => if n = s then (0 : WithTop ℚ) else ⊤, fun _ => none, []⟩).visited.length⟩ :=
    rfl
  rw [hres]
  dsimp only
  constructor
  · rw [if_pos hpost.prev_or_start]
    exact hpost.wback g.keys.length hpost.vis_le
  · obtain ⟨c, hc⟩ := WithTop.ne_top_iff_exists.mp hpost.dist_fin
    refine ⟨c, ?_, hpost.achieve t c hc.symm, ?_⟩
    · rw [if_pos (Or.inl ht), ← hc]
    · intro c' hw'
      have h1 := hpost.dist_min c' hw'
      rw [← hc] at h1
      exact_mod_cast h1

/-- Witness for C1 at a concrete two-node graph with a single edge. -/
theorem dijkstra_optimal_witness :
    ((⟨[0, 1], fun n => if n = 0 then [⟨1, 2, false⟩] else []⟩ : DAdj).keys.Nodup ∧
      (∃ c : ℚ, Walk ⟨[0, 1], fun n => if n = 0 then [⟨1, 2, false⟩] else []⟩
        ⟨false, 3⟩ 0 1 c)) ∧
    (IsPathList ⟨[0, 1], fun n => if n = 0 then [⟨1, 2, false⟩] else []⟩ 0 1
        (dijkstra ⟨[0, 1], fun n => if n = 0 then [⟨1, 2, false⟩] else []⟩ 0 1 ⟨false, 3⟩).path ∧
      ∃ c : ℚ, (dijkstra ⟨[0, 1], fun n => if n = 0 then [⟨1, 2, false⟩] else []⟩ 0 1
          ⟨false, 3⟩).distance = some (c : WithTop ℚ) ∧
        Walk ⟨[0, 1], fun n => if n = 0 then [⟨1, 2, false⟩] else []⟩ ⟨false, 3⟩ 0 1 c ∧
        ∀ c' : ℚ, Walk ⟨[0, 1], fun n => if n = 0 then [⟨1, 2, false⟩] else []⟩
          ⟨false, 3⟩ 0 1 c' → c ≤ c') :=
  ⟨⟨by decide, ⟨0 + effCost ⟨false, 3⟩ ⟨1, 2, false⟩,
      Walk.snoc Walk.nil ⟨1, 2, false⟩ (by decide)⟩⟩,
    dijkstra_optimal _ ⟨false, 3⟩ 0 1 (by decide) (by decide) (by decide) (by decide)
      (by decide) (by decide)
      ⟨0 + effCost ⟨false, 3⟩ ⟨1, 2, false⟩, Walk.snoc Walk.nil ⟨1, 2, false⟩ (by decide)⟩⟩

/-- C5: when the goal is unreachable from the start (and distinct from it),
`dijkstra` returns an empty path and distance `⊤` (JavaScript `Infinity`),
not a finite sentinel. -/
theorem dijkstra_unreachable (g : DAdj) (o : DOpts) (s t : Nat)
    (hnodup : g.keys.Nodup)
    (hcl : ∀ z ∈ g.keys, ∀ e ∈ g.adj z, e.target ∈ g.keys)
    (hw : ∀ z ∈ g.keys, ∀ e ∈ g.adj z, 0 ≤ e.weight)
    (hm : 1 ≤ o.unpavedFactor)
    (hs : s ∈ g.keys) (ht : t ∈ g.keys)
    (hts : t ≠ s)
    (hunreach : ∀ c : ℚ, ¬ Walk g o s t c) :
    (dijkstra g s t o).distance = some ⊤ ∧ (dijkstra g s t o).path = [] := by
  have hIf := dloop_inv hnodup hs hcl hw hm hunreach g.keys.length
    ⟨g.keys, fun n => if n = s then (0 : WithTop ℚ) else ⊤, fun _ => none, []⟩
    (inv_init g o s)
  have hres : dijkstra g s t o =
      ⟨if t ∈ g.keys ∨ t = s then
          some ((dloop g s t o g.keys.length
            ⟨g.keys, fun n => if n = s then (0 : WithTop ℚ) else ⊤, fun _ => none, []⟩).dist t)
        else none,
       if (dloop g s t o g.keys.length
          ⟨g.keys, fun n => if n = s then (0 : WithTop ℚ) else ⊤, fun _ => none, []⟩).prev t ≠ none
          ∨ t = s
       then walkBack g.keys.length
          (dloop g s t o g.keys.length
            ⟨g.keys, fun n => if n = s then (0 : WithTop ℚ) else ⊤, fun _ => none, []⟩).prev t
       else [],
       (dloop g s t o g.keys.length
          ⟨g.keys, fun n => if n = s then (0 : WithTop ℚ) else ⊤, fun _ => none, []⟩).visited.length⟩ :=
    rfl
  have hdist : (dloop g s t o g.keys.length
      ⟨g.keys, fun n => if n = s then (0 : WithTop ℚ) else ⊤, fun _ => none, []⟩).dist t = ⊤ := by
    by_contra hne
    obtain ⟨c, hc⟩ := WithTop.ne_top_iff_exists.mp hne
    exact hunreach c (hIf.achieve t c hc.symm)
  have hprev : (dloop g s t o g.keys.length
      ⟨g.keys, fun n => if n = s then (0 : WithTop ℚ) else ⊤, fun _ => none, []⟩).prev t = none := by
    by_contra hne
    obtain ⟨z, hz⟩ := Option.ne_none_iff_exists.mp hne
    exact (hIf.prevFin t z hz.symm) hdist
  rw [hres]
  dsimp only
  refine ⟨?_, ?_⟩
  · rw [if_pos (Or.inl ht), hdist]
  · rw [if_neg]
    intro h
    rcases h with h | h
    · exact h hprev
    · exact hts h

/-- Witness for C5 at a concrete edgeless two-node graph. -/
theorem dijkstra_unreachable_witness :
    ((1 : Nat) ≠ 0 ∧ ∀ c : ℚ, ¬ Walk ⟨[0, 1], fun _ => []⟩ ⟨false, 3⟩ 0 1 c) ∧
    ((dijkstra ⟨[0, 1], fun _ => []⟩ 0 1 ⟨false, 3⟩).distance = some ⊤ ∧
      (dijkstra ⟨[0, 1], fun _ => []⟩ 0 1 ⟨false, 3⟩).path = []) := by
  have key : ∀ (v : Nat) (c : ℚ), Walk ⟨[0, 1], fun _ => []⟩ ⟨false, 3⟩ 0 v c → v = 0 := by
    intro v c h
    induction h with
    | nil => rfl
    | snoc hwk e he ih => exact absurd he (List.not_mem_nil e)
  have hun : ∀ c : ℚ, ¬ Walk ⟨[0, 1], fun _ => []⟩ ⟨false, 3⟩ 0 1 c := by
    intro c h
    exact absurd (key 1 c h) (by decide)
  exact ⟨⟨by decide, hun⟩,
    dijkstra_unreachable _ ⟨false, 3⟩ 0 1 (by decide) (by decide) (by decide) (by decide)
      (by decide) (by decide) (by decide) hun⟩

/-- C2 counterexample: with `start = goal = 5` absent from the adjacency
(whose only key is `1`), `dijkstra` does not fail with any `UnknownNode`
error; it returns a normal result object -- here even a non-empty path
`[5]` with distance `0` -- so the claimed failure does not happen. -/
theorem dijkstra_no_unknownNode_error :
    dijkstra ⟨[1], fun _ => []⟩ 5 5 ⟨false, 3⟩ =
      ⟨some ((0 : ℚ) : WithTop ℚ), [5], 0⟩ := by
  decide

/-- C2 amended: if `start` is absent from the adjacency keys, `dijkstra`
does not fail; it returns a result with zero visited nodes whose distance
and path are `0` and `[start]` when `goal = start`; otherwise the path is
empty and the distance is `Infinity` when `goal` is an adjacency key and
`undefined` (`none`, since `dist[goal]` is never initialised) when `goal`
is absent as well. -/
theorem dijkstra_start_absent (g : DAdj) (o : DOpts) (s t : Nat)
    (hs : s ∉ g.keys) :
    dijkstra g s t o =
      ⟨if t = s then some ((0 : ℚ) : WithTop ℚ)
        else if t ∈ g.keys then some (⊤ : WithTop ℚ) else none,
       if t = s then [t] else [], 0⟩ := by
  have halltop : ∀ n ∈ g.keys,
      (fun n => if n = s then (0 : WithTop ℚ) else ⊤) n = ⊤ := by
    intro n hn
    dsimp only
    have hns : n ≠ s := by
      intro h
      rw [h] at hn
      exact hs hn
    rw [if_neg hns]
  have hstf : dloop g s t o g.keys.length
      ⟨g.keys, fun n => if n = s then (0 : WithTop ℚ) else ⊤, fun _ => none, []⟩ =
      ⟨g.keys, fun n => if n = s then (0 : WithTop ℚ) else ⊤, fun _ => none, []⟩ := by
    cases hl : g.keys.length with
    | zero => exact dloop_queue_nil (List.length_eq_zero.mp hl)
    | succ f =>
      by_cases hq : g.keys = []
      · exact dloop_queue_nil hq
      · exact dloop_sel_none hq (selectMin_of_all_top halltop)
  have hres : dijkstra g s t o =
      ⟨if t ∈ g.keys ∨ t = s then
          some ((dloop g s t o g.keys.length
            ⟨g.keys, fun n => if n = s then (0 : WithTop ℚ) else ⊤, fun _ => none, []⟩).dist t)
        else none,
       if (dloop g s t o g.keys.length
          ⟨g.keys, fun n => if n = s then (0 : WithTop ℚ) else ⊤, fun _ => none, []⟩).prev t ≠ none
          ∨ t = s
       then walkBack g.keys.length
          (dloop g s t o g.keys.length
            ⟨g.keys, fun n => if n = s then (0 : WithTop ℚ) else ⊤, fun _ => none, []⟩).prev t
       else [],
       (dloop g s t o g.keys.length
          ⟨g.keys, fun n => if n = s then (0 : WithTop ℚ) else ⊤, fun _ => none, []⟩).visited.length⟩ :=
    rfl
  rw [hres, hstf]
  dsimp only
  by_cases ht : t = s
  · subst ht
    simp [walkBack_none]
  · simp [ht]

/-- Witness for C2's amended statement with an absent start node. -/
theorem dijkstra_start_absent_witness :
    ((5 : Nat) ∉ ([1] : List Nat)) ∧
      dijkstra ⟨[1], fun _ => []⟩ 5 7 ⟨false, 3⟩ =
        ⟨if (7 : Nat) = 5 then some ((0 : ℚ) : WithTop ℚ)
          else if 7 ∈ ([1] : List Nat) then some (⊤ : WithTop ℚ) else none,
         if (7 : Nat) = 5 then [7] else [], 0⟩ :=
  ⟨by decide, dijkstra_start_absent _ _ 5 7 (by decide)⟩

/-- C9: the haversine distance is symmetric and vanishes on coincident
coordinates, for all coordinates with latitude in [-90, 90] and longitude
in [-180, 180]. -/
theorem haversine_symm_self (a b : Coord)
    (_ha1 : -90 ≤ a.lat) (_ha2 : a.lat ≤ 90) (_ha3 : -180 ≤ a.lng) (_ha4 : a.lng ≤ 180)
    (_hb1 : -90 ≤ b.lat) (_hb2 : b.lat ≤ 90) (_hb3 : -180 ≤ b.lng) (_hb4 : b.lng ≤ 180) :
    haversine a b = haversine b a ∧ haversine a a = 0 := by
  constructor
  · simp only [haversine]
    congr 2
    congr 1
    congr 1
    rw [show (a.lat - b.lat) * Real.pi / 180 / 2 = -((b.lat - a.lat) * Real.pi / 180 / 2) by ring,
        show (a.lng - b.lng) * Real.pi / 180 / 2 = -((b.lng - a.lng) * Real.pi / 180 / 2) by ring,
        Real.sin_neg, Real.sin_neg]
    ring
  · simp only [haversine, sub_self, zero_mul, zero_div, Real.sin_zero]
    norm_num [Real.sqrt_zero, Real.arcsin_zero]

/-- Witness for C9 at two concrete coordinates. -/
theorem haversine_symm_self_witness :
    ((-90 : ℝ) ≤ 10 ∧ (10 : ℝ) ≤ 90) ∧
      (haversine ⟨10, 20⟩ ⟨30, 40⟩ = haversine ⟨30, 40⟩ ⟨10, 20⟩ ∧
        haversine ⟨10, 20⟩ ⟨10, 20⟩ = 0) :=
  ⟨⟨by norm_num, by norm_num⟩,
    haversine_symm_self ⟨10, 20⟩ ⟨30, 40⟩ (by norm_num) (by norm_num) (by norm_num)
      (by norm_num) (by norm_num) (by norm_num) (by norm_num) (by norm_num)⟩

/-- C3 counterexample: the nearest-node query on an empty node list does
not fail with an `EmptyGraph` error; it returns the null identifier
(`bestId` stays `null`). -/
theorem nearestNodeId_empty_returns_null : nearestNodeId ⟨0, 0⟩ [] = none := rfl

/-- C3 amended: for every coordinate point, `nearestNodeId` on an empty
node list returns `null` (`none`) rather than failing. -/
theorem nearestNodeId_empty (p : Coord) : nearestNodeId p [] = none := rfl

theorem nearestAux_spec (p : Coord) :
    ∀ (l : List MapNode) (bid : Option String) (best : WithTop ℝ),
      (nearestAux p l bid best = bid ∧
        ∀ n ∈ l, best ≤ (haversine p ⟨n.lat, n.lng⟩ : WithTop ℝ)) ∨
      (∃ n ∈ l, nearestAux p l bid best = some n.id ∧
        (haversine p ⟨n.lat, n.lng⟩ : WithTop ℝ) < best ∧
        ∀ m ∈ l, (haversine p ⟨n.lat, n.lng⟩ : WithTop ℝ) ≤
          (haversine p ⟨m.lat, m.lng⟩ : WithTop ℝ)) := by
  intro l
  induction l with
  | nil => intro bid best; exact Or.inl ⟨rfl, by simp⟩
  | cons n rest ih =>
    intro bid best
    simp only [nearestAux]
    by_cases h : (haversine p ⟨n.lat, n.lng⟩ : WithTop ℝ) < best
    · rw [if_pos h]
      rcases ih (some n.id) ((haversine p ⟨n.lat, n.lng⟩ : ℝ) : WithTop ℝ) with
        ⟨ha, hb⟩ | ⟨m, hm, ha, hb, hc⟩
      · refine Or.inr ⟨n, List.mem_cons_self _ _, ha, h, ?_⟩
        intro m hm
        rcases List.mem_cons.mp hm with rfl | hm'
        · exact le_refl _
        · exact hb m hm'
      · refine Or.inr ⟨m, List.mem_cons_of_mem _ hm, ha, lt_trans hb h, ?_⟩
        intro m' hm'
        rcases List.mem_cons.mp hm' with rfl | hm''
        · exact hb.le
        · exact hc m' hm''
    · rw [if_neg h]
      rcases ih bid best with ⟨ha, hb⟩ | ⟨m, hm, ha, hb, hc⟩
      · refine Or.inl ⟨ha, ?_⟩
        intro m hm
        rcases List.mem_cons.mp hm with rfl | hm'
        · exact not_lt.mp h
        · exact hb m hm'
      · refine Or.inr ⟨m, List.mem_cons_of_mem _ hm, ha, hb, ?_⟩
        intro m' hm'
        rcases List.mem_cons.mp hm' with rfl | hm''
        · exact le_trans hb.le (not_lt.mp h)
        · exact hc m' hm''

theorem haversine_flip_lat : haversine ⟨0, 0⟩ ⟨-1, 0⟩ = haversine ⟨0, 0⟩ ⟨1, 0⟩ := by
  simp only [haversine]
  have h1 : ((-1 : ℝ) - 0) * Real.pi / 180 / 2 = -(((1 : ℝ) - 0) * Real.pi / 180 / 2) := by ring
  have h2 : ((0 : ℝ) - 0) * Real.pi / 180 / 2 = 0 := by ring
  rw [h1, h2, Real.sin_neg, Real.sin_zero]
  ring_nf

theorem nearest_first_order :
    nearestNodeId ⟨0, 0⟩ [⟨"a", 1, 0⟩, ⟨"b", -1, 0⟩] = some "a" := by
  simp only [nearestNodeId, nearestAux]
  rw [if_pos (WithTop.coe_lt_top _)]
  rw [if_neg]
  intro hlt
  rw [WithTop.coe_lt_coe] at hlt
  rw [haversine_flip_lat] at hlt
  exact lt_irrefl _ hlt

theorem nearest_second_order :
    nearestNodeId ⟨0, 0⟩ [⟨"b", -1, 0⟩, ⟨"a", 1, 0⟩] = some "b" := by
  simp only [nearestNodeId, nearestAux]
  rw [if_pos (WithTop.coe_lt_top _)]
  rw [if_neg]
  intro hlt
  rw [WithTop.coe_lt_coe] at hlt
  rw [haversine_flip_lat] at hlt
  exact lt_irrefl _ hlt

/-- C4 counterexample: two nodes equidistant from the query point, listed
in the two possible orders (a permutation of each other), make
`nearestNodeId` return different node ids, so the query is not invariant
under reordering of the node list. -/
theorem nearest_not_perm_invariant :
    List.Perm [(⟨"a", 1, 0⟩ : MapNode), ⟨"b", -1, 0⟩] [⟨"b", -1, 0⟩, ⟨"a", 1, 0⟩] ∧
      nearestNodeId ⟨0, 0⟩ [⟨"a", 1, 0⟩, ⟨"b", -1, 0⟩] ≠
        nearestNodeId ⟨0, 0⟩ [⟨"b", -1, 0⟩, ⟨"a", 1, 0⟩] := by
  refine ⟨List.Perm.swap _ _ _, ?_⟩
  rw [nearest_first_order, nearest_second_order]
  decide

/-- C4 amended: for every point and every nonempty node list,
`nearestNodeId` returns the id of a node whose haversine distance to the
point is minimal over the list (ties are broken by the first-encountered
node, so the minimal distance -- though not necessarily the id -- is
invariant under reordering). -/
theorem nearestNodeId_min (p : Coord) (l : List MapNode) (hne : l ≠ []) :
    ∃ n ∈ l, nearestNodeId p l = some n.id ∧
      ∀ m ∈ l, haversine p ⟨n.lat, n.lng⟩ ≤ haversine p ⟨m.lat, m.lng⟩ := by
  rcases nearestAux_spec p l none ⊤ with ⟨ha, hb⟩ | ⟨n, hn, ha, hb, hc⟩
  · obtain ⟨n, hn⟩ : ∃ n, n ∈ l := List.exists_mem_of_ne_nil l hne
    exact absurd (hb n hn) (by simp)
  · refine ⟨n, hn, ha, ?_⟩
    intro m hm
    exact_mod_cast hc m hm

/-- Witness for C4's amended statement on a singleton node list. -/
theorem nearestNodeId_min_witness :
    ([(⟨"a", 0, 0⟩ : MapNode)] ≠ []) ∧
      ∃ n ∈ [(⟨"a", 0, 0⟩ : MapNode)], nearestNodeId ⟨3, 4⟩ [⟨"a", 0, 0⟩] = some n.id ∧
        ∀ m ∈ [(⟨"a", 0, 0⟩ : MapNode)],
          haversine ⟨3, 4⟩ ⟨n.lat, n.lng⟩ ≤ haversine ⟨3, 4⟩ ⟨m.lat, m.lng⟩ :=
  ⟨List.cons_ne_nil _ _, nearestNodeId_min ⟨3, 4⟩ _ (List.cons_ne_nil _ _)⟩


theorem length_flatMap_range_map {α : Type} (n m : Nat) (f : Nat → Nat → α) :
    ((List.range n).flatMap fun i => (List.range m).map (f i)).length = n * m := by
  induction n with
  | zero => simp
  | succ k ih =>
    rw [List.range_succ, List.flatMap_append, List.length_append, ih]
    simp [Nat.succ_mul]

theorem getElem_flatMap_range_map {α : Type} {n m r c : Nat} (f : Nat → Nat → α)
    (hr : r < n) (hc : c < m) :
    ((List.range n).flatMap fun i => (List.range m).map (f i))[r * m + c]? = some (f r c) := by
  induction n with
  | zero => omega
  | succ k ih =>
    rw [List.range_succ, List.flatMap_append]
    rcases Nat.lt_succ_iff_lt_or_eq.mp hr with h | rfl
    · rw [List.getElem?_append_left]
      · exact ih h
      · rw [length_flatMap_range_map]
        calc r * m + c < r * m + m := by omega
          _ = (r + 1) * m := by ring
          _ ≤ k * m := Nat.mul_le_mul_right m h
    · rw [List.getElem?_append_right]
      · rw [length_flatMap_range_map]
        have h1 : r * m + c - r * m = c := by omega
        rw [h1]
        simp [List.getElem?_map, List.getElem?_range hc]
      · rw [length_flatMap_range_map]
        omega

theorem sum_map_add_nat {α : Type} (l : List α) (f g : α → Nat) :
    (l.map fun a => f a + g a).sum = (l.map f).sum + (l.map g).sum := by
  induction l with
  | nil => rfl
  | cons a t ih =>
    simp only [List.map_cons, List.sum_cons, ih]
    omega

theorem sum_range_ite_pos (n : Nat) :
    ((List.range n).map fun c => if 0 < c then 1 else 0).sum = n - 1 := by
  induction n with
  | zero => rfl
  | succ k ih =>
    rw [List.range_succ, List.map_append, List.sum_append, ih]
    by_cases h : 0 < k <;> simp [h] <;> omega

theorem sum_range_ite_lt (n m : Nat) :
    ((List.range n).map fun c => if c < m then 1 else 0).sum = min m n := by
  induction n with
  | zero => simp
  | succ k ih =>
    rw [List.range_succ, List.map_append, List.sum_append, ih]
    by_cases h : k < m <;> simp [h] <;> omega

theorem sum_range_const (n k : Nat) :
    ((List.range n).map fun _ => k).sum = n * k := by
  simp [List.map_const', List.sum_replicate, smul_eq_mul]

theorem gridNeighbors_length (rows cols r c : Nat) :
    (gridNeighbors rows cols r c).length =
      ((if 0 < r then 1 else 0) + (if r < rows - 1 then 1 else 0)) +
      ((if 0 < c then 1 else 0) + (if c < cols - 1 then 1 else 0)) := by
  rw [gridNeighbors]
  by_cases h1 : 0 < r <;> by_cases h2 : r < rows - 1 <;> by_cases h3 : 0 < c <;>
    by_cases h4 : c < cols - 1 <;> simp [h1, h2, h3, h4]

theorem length_flatMap_flatMap_map {β : Type} (rows cols : Nat)
    (nb : Nat → Nat → List Nat) (g : Nat → Nat → Nat → β) :
    ((List.range rows).flatMap fun r =>
      (List.range cols).flatMap fun c => (nb r c).map (g r c)).length =
    ((List.range rows).map fun r =>
      ((List.range cols).map fun c => (nb r c).length).sum).sum := by
  rw [List.length_flatMap]
  congr 1
  apply List.map_congr_left
  intro r _
  rw [Function.comp_apply, List.length_flatMap]
  congr 1
  apply List.map_congr_left
  intro c _
  rw [Function.comp_apply, List.length_map]

theorem sum_grid_neighbors (rows cols : Nat) (hrows : 1 ≤ rows) (hcols : 1 ≤ cols) :
    ((List.range rows).map fun r =>
      ((List.range cols).map fun c => (gridNeighbors rows cols r c).length).sum).sum =
    2 * (rows * (cols - 1) + cols * (rows - 1)) := by
  have hinner : ∀ r : Nat,
      ((List.range cols).map fun c => (gridNeighbors rows cols r c).length).sum =
      cols * ((if 0 < r then 1 else 0) + (if r < rows - 1 then 1 else 0)) +
        ((cols - 1) + (cols - 1)) := by
    intro r
    have h1 : ((List.range cols).map fun c => (gridNeighbors rows cols r c).length) =
        ((List.range cols).map fun c =>
          (((if 0 < r then 1 else 0) + (if r < rows - 1 then 1 else 0)) : Nat) +
          ((if 0 < c then 1 else 0) + (if c < cols - 1 then 1 else 0))) := by
      apply List.map_congr_left
      intro c _
      rw [gridNeighbors_length]
    rw [h1, sum_map_add_nat, sum_range_const, sum_map_add_nat, sum_range_ite_pos,
      sum_range_ite_lt, Nat.min_eq_left (Nat.sub_le _ _)]
  have h2 : ((List.range rows).map fun r =>
      ((List.range cols).map fun c => (gridNeighbors rows cols r c).length).sum) =
      ((List.range rows).map fun r =>
        cols * ((if 0 < r then 1 else 0) + (if r < rows - 1 then 1 else 0)) +
          ((cols - 1) + (cols - 1))) := by
    apply List.map_congr_left
    intro r _
    exact hinner r
  rw [h2, sum_map_add_nat, sum_range_const]
  have h3 : ((List.range rows).map fun r =>
      cols * ((if 0 < r then 1 else 0) + (if r < rows - 1 then 1 else 0))).sum =
      cols * ((rows - 1) + (rows - 1)) := by
    rw [List.sum_map_mul_left, sum_map_add_nat, sum_range_ite_pos, sum_range_ite_lt,
      Nat.min_eq_left (Nat.sub_le _ _)]
  rw [h3]
  have hx : rows - 1 + 1 = rows := Nat.succ_pred_eq_of_pos hrows
  have hy : cols - 1 + 1 = cols := Nat.succ_pred_eq_of_pos hcols
  rw [← hx, ← hy]
  ring

theorem gridEdges_length (center : Coord) (rows cols : Nat) (delta : ℝ)
    (hrows : 1 ≤ rows) (hcols : 1 ≤ cols) :
    (gridEdges center rows cols delta).length =
      2 * (rows * (cols - 1) + cols * (rows - 1)) := by
  rw [gridEdges, length_flatMap_flatMap_map, sum_grid_neighbors rows cols hrows hcols]


theorem gridNodes_length (center : Coord) (rows cols : Nat) (delta : ℝ) :
    (gridNodes center rows cols delta).length = rows * cols := by
  rw [gridNodes, length_flatMap_range_map]

theorem gridEdges_paved (center : Coord) (rows cols : Nat) (delta : ℝ) :
    ∀ e ∈ gridEdges center rows cols delta, e.surface = "paved" ∧ e.unpaved = false := by
  intro e he
  rw [gridEdges] at he
  simp only [List.mem_flatMap, List.mem_map] at he
  obtain ⟨r, hr, c, hc, j, hj, rfl⟩ := he
  exact ⟨rfl, rfl⟩

/-- C7: `buildGridGraph` produces exactly `rows * cols` nodes laid out on
the regular lattice centered on `center` (node at grid position `(r, c)`
sits at linear index `r * cols + c` with the deterministic id
`String(r * cols + c)` and coordinates `start + step * delta`), exactly
`2 * (rows * (cols-1) + cols * (rows-1))` directed edges (two opposing
edges per adjacent 4-neighbor pair), and every edge has surface
`'paved'` / `unpaved: false`. -/
theorem buildGridGraph_spec (center : Coord) (rows cols : Nat) (delta : ℝ)
    (hrows : 1 ≤ rows) (hcols : 1 ≤ cols) (_hdelta : 0 < delta) :
    (buildGridGraph center rows cols delta).nodes.length = rows * cols ∧
    (buildGridGraph center rows cols delta).edges.length =
      2 * (rows * (cols - 1) + cols * (rows - 1)) ∧
    (∀ e ∈ (buildGridGraph center rows cols delta).edges,
      e.surface = "paved" ∧ e.unpaved = false) ∧
    (∀ r c : Nat, r < rows → c < cols →
      (buildGridGraph center rows cols delta).nodes[r * cols + c]? =
        some ⟨toString (r * cols + c),
          (center.lat - ((rows : ℝ) - 1) * delta / 2) + (r : ℝ) * delta,
          (center.lng - ((cols : ℝ) - 1) * delta / 2) + (c : ℝ) * delta⟩) := by
  refine ⟨gridNodes_length center rows cols delta,
    gridEdges_length center rows cols delta hrows hcols,
    gridEdges_paved center rows cols delta, ?_⟩
  intro r c hr hc
  show (gridNodes center rows cols delta)[r * cols + c]? = _
  rw [gridNodes, getElem_flatMap_range_map _ hr hc]

/-- Witness for C7 on a 2-by-2 grid. -/
theorem buildGridGraph_spec_witness :
    ((1 : Nat) ≤ 2 ∧ (0 : ℝ) < 1) ∧
    ((buildGridGraph ⟨0, 0⟩ 2 2 1).nodes.length = 2 * 2 ∧
      (buildGridGraph ⟨0, 0⟩ 2 2 1).edges.length = 2 * (2 * (2 - 1) + 2 * (2 - 1)) ∧
      (∀ e ∈ (buildGridGraph ⟨0, 0⟩ 2 2 1).edges,
        e.surface = "paved" ∧ e.unpaved = false) ∧
      (∀ r c : Nat, r < 2 → c < 2 →
        (buildGridGraph ⟨0, 0⟩ 2 2 1).nodes[r * 2 + c]? =
          some ⟨toString (r * 2 + c),
            ((0 : ℝ) - ((2 : ℝ) - 1) * 1 / 2) + (r : ℝ) * 1,
            ((0 : ℝ) - ((2 : ℝ) - 1) * 1 / 2) + (c : ℝ) * 1⟩)) :=
  ⟨⟨by norm_num, by norm_num⟩,
    buildGridGraph_spec ⟨0, 0⟩ 2 2 1 (by norm_num) (by norm_num) (by norm_num)⟩

theorem find_overwrite_self {α : Type} (k : Nat) (v : α) :
    ∀ m : List (Nat × α), (m.any fun p => p.1 == k) = true →
      (((m.map fun p => if p.1 == k then (k, v) else p).find? fun p => p.1 == k) =
        some (k, v)) := by
  intro m
  induction m with
  | nil => intro h; cases h
  | cons p m' ih =>
    intro h
    rw [List.map_cons]
    by_cases hp : p.1 = k
    · rw [if_pos (by simp [hp]), List.find?_cons_of_pos]
      simp
    · rw [if_neg (by simp [hp]), List.find?_cons_of_neg]
      · apply ih
        simp only [List.any_cons, Bool.or_eq_true] at h
        rcases h with h | h
        · exact absurd (by simpa using h) hp
        · exact h
      · simp [hp]

theorem find_overwrite_other {α : Type} (k k' : Nat) (v : α) (hne : k' ≠ k) :
    ∀ m : List (Nat × α),
      ((m.map fun p => if p.1 == k then (k, v) else p).find? fun p => p.1 == k') =
        m.find? fun p => p.1 == k' := by
  intro m
  induction m with
  | nil => rfl
  | cons p m' ih =>
    rw [List.map_cons]
    by_cases hp : p.1 = k
    · rw [if_pos (by simp [hp]), List.find?_cons_of_neg, List.find?_cons_of_neg, ih]
      · simp [hp]
        exact fun h => hne h.symm
      · simp
        exact fun h => hne h.symm
    · rw [if_neg (by simp [hp])]
      by_cases hpk : p.1 = k'
      · rw [List.find?_cons_of_pos _ (by simp [hpk]), List.find?_cons_of_pos _ (by simp [hpk])]
      · rw [List.find?_cons_of_neg, List.find?_cons_of_neg, ih] <;> simp [hpk]

theorem mapGet_mapSet {α : Type} (m : List (Nat × α)) (k k' : Nat) (v : α) :
    mapGet (mapSet m k v) k' = if k' = k then some v else mapGet m k' := by
  rw [mapSet]
  by_cases hany : (m.any fun p => p.1 == k) = true
  · rw [if_pos hany]
    by_cases h : k' = k
    · subst h
      rw [if_pos rfl, mapGet, find_overwrite_self k' v m hany]
      rfl
    · rw [if_neg h, mapGet, mapGet, find_overwrite_other k k' v h m]
  · rw [if_neg hany]
    have hnone : (m.find? fun p => p.1 == k) = none := by
      rw [List.find?_eq_none]
      intro x hx hp
      exact hany (List.any_eq_true.mpr ⟨x, hx, hp⟩)
    by_cases h : k' = k
    · subst h
      rw [if_pos rfl, mapGet, List.find?_append, hnone]
      simp
    · rw [if_neg h, mapGet, mapGet, List.find?_append]
      have hone : ([(k, v)].find? fun p => p.1 == k') = none := by
        simp only [List.find?]
        have hkk : (k == k') = false := by
          simp
          exact fun hh => h hh.symm
        rw [hkk]
      rw [hone]
      simp

theorem mapGet_idToIndex (nm : List (Nat × Coord)) (k : Nat) :
    mapGet (idToIndex nm) k = (mapGet nm k).map fun _ => "n" ++ toString k := by
  rw [idToIndex, mapGet, mapGet]
  induction nm with
  | nil => rfl
  | cons p m' ih =>
    rw [List.map_cons]
    by_cases hp : p.1 = k
    · rw [List.find?_cons_of_pos _ (by simp [hp]), List.find?_cons_of_pos _ (by simp [hp])]
      simp [hp]
    · rw [List.find?_cons_of_neg, List.find?_cons_of_neg, ih] <;> simp [hp]

theorem contains_true_iff (l : List String) (a : String) :
    l.contains a = true ↔ a ∈ l := by
  simp


theorem isUnpaved_iff_t (tags : Tags) :
    isUnpaved tags = true ↔
      (strToLower (tags.surface.getD "") ∈ unpavedSurfaces ∨
       strToLower (tags.tracktype.getD "") ∈ unpavedGrades ∨
       strToLower (tags.highway.getD "") = "track") := by
  have hempty : ("" : String) ∉ unpavedGrades := by decide
  simp only [isUnpaved]
  by_cases h1 : unpavedSurfaces.contains (strToLower (tags.surface.getD "")) = true
  · rw [if_pos h1]
    rw [contains_true_iff] at h1
    simp [h1]
  · rw [if_neg h1]
    rw [contains_true_iff] at h1
    by_cases h2 : (strToLower (tags.tracktype.getD "") != "" &&
        unpavedGrades.contains (strToLower (tags.tracktype.getD ""))) = true
    · rw [if_pos h2]
      simp only [Bool.and_eq_true] at h2
      rw [contains_true_iff] at h2
      simp [h2.2]
    · rw [if_neg h2]
      simp only [Bool.and_eq_true, not_and] at h2
      by_cases h3 : (strToLower (tags.highway.getD "") == "track") = true
      · rw [if_pos h3]
        simp only [beq_iff_eq] at h3
        simp [h3]
      · rw [if_neg h3]
        simp only [beq_iff_eq] at h3
        have hmid : strToLower (tags.tracktype.getD "") ∉ unpavedGrades := by
          intro hmem
          have hne : (strToLower (tags.tracktype.getD "") != "") = true := by
            rw [bne_iff_ne]
            intro hq
            rw [hq] at hmem
            exact hempty hmem
          exact (h2 hne) (contains_true_iff _ _ |>.mpr hmem)
        simp [h1, hmid, h3]

theorem mapGet_mem {α : Type} {nm : List (Nat × α)} {k : Nat} {v : α}
    (h : mapGet nm k = some v) : ∃ p ∈ nm, p.1 = k ∧ p.2 = v := by
  rw [mapGet] at h
  cases hf : nm.find? (fun p => p.1 == k) with
  | none => rw [hf] at h; cases h
  | some p =>
    rw [hf] at h
    have hp := List.find?_some hf
    have hm := List.mem_of_find?_eq_some hf
    refine ⟨p, hm, by simpa using hp, by simpa using h⟩

theorem roadNodes_has {nm : List (Nat × Coord)} {k : Nat} {v : Coord}
    (h : mapGet nm k = some v) :
    ∃ n ∈ roadNodes nm, n.id = "n" ++ toString k := by
  obtain ⟨p, hm, hk, _⟩ := mapGet_mem h
  refine ⟨⟨"n" ++ toString p.1, p.2.lat, p.2.lng⟩, ?_, by rw [hk]⟩
  rw [roadNodes]
  exact List.mem_map_of_mem _ hm

theorem wayEdges_endpoints (nm : List (Nat × Coord)) (u : Bool) (s : String) :
    ∀ (ids : List Nat), ∀ e ∈ wayEdges nm (idToIndex nm) u s ids,
      (∃ n ∈ roadNodes nm, n.id = e.fromId) ∧ (∃ n ∈ roadNodes nm, n.id = e.toId) := by
  intro ids
  induction ids with
  | nil => intro e he; cases he
  | cons a rest ih =>
    cases rest with
    | nil => intro e he; cases he
    | cons b rest2 =>
      intro e he
      rw [wayEdges] at he
      rcases List.mem_append.mp he with hblock | htail
      · cases hma : mapGet nm a with
        | none => rw [hma] at hblock; cases hblock
        | some ca =>
          cases hmb : mapGet nm b with
          | none => rw [hma, hmb] at hblock; cases hblock
          | some cb =>
            rw [hma, hmb, mapGet_idToIndex, mapGet_idToIndex, hma, hmb] at hblock
            simp only [Option.map_some] at hblock
            rcases List.mem_cons.mp hblock with rfl | hblock2
            · exact ⟨roadNodes_has hma, roadNodes_has hmb⟩
            · rcases List.mem_cons.mp hblock2 with rfl | hblock3
              · exact ⟨roadNodes_has hmb, roadNodes_has hma⟩
              · cases hblock3
      · exact ih e htail



theorem roadGraph_gravel_way (a b c : Nat) (la lga lb lgb lc lgc : ℝ) (tags : Tags)
    (htag : tags.surface = some "gravel") :
    ((buildRoadGraphData [OsmElement.node a la lga, OsmElement.node b lb lgb,
        OsmElement.node c lc lgc, OsmElement.way [a, b, c] tags]).edges.map
      fun e => (e.fromId, e.toId, e.unpaved)) =
    [("n" ++ toString a, "n" ++ toString b, true),
     ("n" ++ toString b, "n" ++ toString a, true),
     ("n" ++ toString b, "n" ++ toString c, true),
     ("n" ++ toString c, "n" ++ toString b, true)] := by
  have hunp : isUnpaved tags = true := by
    rw [isUnpaved_iff_t]
    left
    rw [htag]
    decide
  have hparse : parseElementsAux [OsmElement.node a la lga, OsmElement.node b lb lgb,
      OsmElement.node c lc lgc, OsmElement.way [a, b, c] tags] [] [] =
      (mapSet (mapSet (mapSet ([] : List (Nat × Coord)) a ⟨la, lga⟩) b ⟨lb, lgb⟩) c ⟨lc, lgc⟩,
        [([a, b, c], tags)]) := by
    simp [parseElementsAux]
  have hma : ∃ x, mapGet (mapSet (mapSet (mapSet ([] : List (Nat × Coord)) a ⟨la, lga⟩) b ⟨lb, lgb⟩) c ⟨lc, lgc⟩) a
      = some x := by
    rw [mapGet_mapSet, mapGet_mapSet, mapGet_mapSet]
    split_ifs <;> simp_all
  have hmb : ∃ x, mapGet (mapSet (mapSet (mapSet ([] : List (Nat × Coord)) a ⟨la, lga⟩) b ⟨lb, lgb⟩) c ⟨lc, lgc⟩) b
      = some x := by
    rw [mapGet_mapSet, mapGet_mapSet, mapGet_mapSet]
    split_ifs <;> simp_all
  have hmc : ∃ x, mapGet (mapSet (mapSet (mapSet ([] : List (Nat × Coord)) a ⟨la, lga⟩) b ⟨lb, lgb⟩) c ⟨lc, lgc⟩) c
      = some x := by
    rw [mapGet_mapSet]
    split_ifs <;> simp_all
  obtain ⟨xa, hxa⟩ := hma
  obtain ⟨xb, hxb⟩ := hmb
  obtain ⟨xc, hxc⟩ := hmc
  simp only [buildRoadGraphData, hparse, roadEdges, List.flatMap_cons, List.flatMap_nil,
    List.append_nil, wayEdges, mapGet_idToIndex, hxa, hxb, hxc, hunp, Option.map_some]
  simp


theorem buildRoadGraphData_endpoints (elements : List OsmElement) :
    ∀ e ∈ (buildRoadGraphData elements).edges,
      (∃ n ∈ (buildRoadGraphData elements).nodes, n.id = e.fromId) ∧
      (∃ n ∈ (buildRoadGraphData elements).nodes, n.id = e.toId) := by
  intro e he
  simp only [buildRoadGraphData] at he ⊢
  rw [roadEdges, List.mem_flatMap] at he
  obtain ⟨w, _, he2⟩ := he
  exact wayEdges_endpoints _ _ _ _ e he2

/-- C6: the road-graph build raises `AreaTooLarge` exactly when the
bounding box's area in squared degrees strictly exceeds `maxAreaDeg2`
(never at or below the threshold), and the failure happens before any
parsing: in the error case the result does not depend on the raw
elements at all. -/
theorem fetchRoadGraph_area_guard (bounds : LatLngBounds) (maxAreaDeg2 : ℚ)
    (elements : List OsmElement) :
    (bboxAreaDeg2 bounds > maxAreaDeg2 →
      fetchRoadGraph bounds maxAreaDeg2 elements = Except.error "AreaTooLarge" ∧
      ∀ elements' : List OsmElement,
        fetchRoadGraph bounds maxAreaDeg2 elements =
          fetchRoadGraph bounds maxAreaDeg2 elements') ∧
    (bboxAreaDeg2 bounds ≤ maxAreaDeg2 →
      fetchRoadGraph bounds maxAreaDeg2 elements =
        Except.ok (buildRoadGraphData elements)) := by
  constructor
  · intro h
    refine ⟨by rw [fetchRoadGraph, if_pos h], ?_⟩
    intro els'
    rw [fetchRoadGraph, if_pos h, fetchRoadGraph, if_pos h]
  · intro h
    rw [fetchRoadGraph, if_neg (not_lt.mpr h)]

/-- Witness for C6 at the exact threshold (area 1 with limit 1 succeeds)
and above it (area 1 with limit 1/2 fails). -/
theorem fetchRoadGraph_area_guard_witness :
    (bboxAreaDeg2 ⟨0, 0, 1, 1⟩ ≤ 1 ∧
      fetchRoadGraph ⟨0, 0, 1, 1⟩ 1 [] = Except.ok (buildRoadGraphData [])) ∧
    (bboxAreaDeg2 ⟨0, 0, 1, 1⟩ > 1 / 2 ∧
      fetchRoadGraph ⟨0, 0, 1, 1⟩ (1 / 2) [] = Except.error "AreaTooLarge") :=
  ⟨⟨by norm_num [bboxAreaDeg2],
      (fetchRoadGraph_area_guard ⟨0, 0, 1, 1⟩ 1 []).2 (by norm_num [bboxAreaDeg2])⟩,
    ⟨by norm_num [bboxAreaDeg2],
      ((fetchRoadGraph_area_guard ⟨0, 0, 1, 1⟩ (1 / 2) []).1
        (by norm_num [bboxAreaDeg2])).1⟩⟩

/-- C8: surface classification and bidirectional emission.  (1) a way is
classified Unpaved exactly when its lowercased surface tag is in the
unpaved set, or its lowercased tracktype is grade2..grade5, or its
lowercased highway tag is `track`; (2) a way tagged `surface=gravel` over
node sequence A, B, C (all parsed) yields exactly the four directed edges
(A,B), (B,A), (B,C), (C,B), all unpaved; (3) every emitted edge's
endpoints are parsed nodes -- a consecutive pair with a missing endpoint
is skipped, never failing the (total) build. -/
theorem roadGraph_surface_spec :
    (∀ tags : Tags, isUnpaved tags = true ↔
      (strToLower (tags.surface.getD "") ∈ unpavedSurfaces ∨
       strToLower (tags.tracktype.getD "") ∈ unpavedGrades ∨
       strToLower (tags.highway.getD "") = "track")) ∧
    (∀ (a b c : Nat) (la lga lb lgb lc lgc : ℝ) (tags : Tags),
      tags.surface = some "gravel" →
      ((buildRoadGraphData [OsmElement.node a la lga, OsmElement.node b lb lgb,
          OsmElement.node c lc lgc, OsmElement.way [a, b, c] tags]).edges.map
        fun e => (e.fromId, e.toId, e.unpaved)) =
      [("n" ++ toString a, "n" ++ toString b, true),
       ("n" ++ toString b, "n" ++ toString a, true),
       ("n" ++ toString b, "n" ++ toString c, true),
       ("n" ++ toString c, "n" ++ toString b, true)]) ∧
    (∀ elements : List OsmElement, ∀ e ∈ (buildRoadGraphData elements).edges,
      (∃ n ∈ (buildRoadGraphData elements).nodes, n.id = e.fromId) ∧
      (∃ n ∈ (buildRoadGraphData elements).nodes, n.id = e.toId)) :=
  ⟨isUnpaved_iff_t, roadGraph_gravel_way, buildRoadGraphData_endpoints⟩

/-- Witness for C8 on a concrete gravel way over nodes 1, 2, 3. -/
theorem roadGraph_surface_spec_witness :
    ((⟨some "gravel", none, none⟩ : Tags).surface = some "gravel") ∧
    ((buildRoadGraphData [OsmElement.node 1 0 0, OsmElement.node 2 0 1,
        OsmElement.node 3 1 1, OsmElement.way [1, 2, 3] ⟨some "gravel", none, none⟩]).edges.map
      fun e => (e.fromId, e.toId, e.unpaved)) =
    [("n" ++ toString 1, "n" ++ toString 2, true),
     ("n" ++ toString 2, "n" ++ toString 1, true),
     ("n" ++ toString 2, "n" ++ toString 3, true),
     ("n" ++ toString 3, "n" ++ toString 2, true)] :=
  ⟨rfl, roadGraph_surface_spec.2.1 1 2 3 0 0 0 1 1 1 ⟨some "gravel", none, none⟩ rfl⟩

end DijNav
